import Mathlib

/-!
Verification of the OCI marketplace consolidation and classification engine.

The Python sources `process_oci_all_regions.py` ("All" definitions) and
`process_oci_customer.py` ("Cust" definitions) are shallowly embedded below.
JSON-like values are modelled by `Val`; Python dicts are association lists
with insertion-ordered keys; object identity (aliasing of raw listing
records) is modelled by an explicit store of records indexed by `Nat`.
-/

/-- A JSON-like Python value as handled by the processors. -/
inductive Val where
  | null
  | str (s : String)
  | bool (b : Bool)
  | int (n : Int)
  | list (xs : List Val)
  | obj (fields : List (String × Val))

mutual

def valDecEq : (a b : Val) → Decidable (a = b)
  | .null, .null => .isTrue rfl
  | .str s, .str t =>
      match decEq s t with
      | .isTrue h => .isTrue (by rw [h])
      | .isFalse h => .isFalse (by intro hh; cases hh; exact h rfl)
  | .bool x, .bool y =>
      match decEq x y with
      | .isTrue h => .isTrue (by rw [h])
      | .isFalse h => .isFalse (by intro hh; cases hh; exact h rfl)
  | .int x, .int y =>
      match decEq x y with
      | .isTrue h => .isTrue (by rw [h])
      | .isFalse h => .isFalse (by intro hh; cases hh; exact h rfl)
  | .list xs, .list ys =>
      match valListDecEq xs ys with
      | .isTrue h => .isTrue (by rw [h])
      | .isFalse h => .isFalse (by intro hh; cases hh; exact h rfl)
  | .obj fs, .obj gs =>
      match valFieldsDecEq fs gs with
      | .isTrue h => .isTrue (by rw [h])
      | .isFalse h => .isFalse (by intro hh; cases hh; exact h rfl)
  | .null, .str _ => .isFalse (fun h => Val.noConfusion h)
  | .null, .bool _ => .isFalse (fun h => Val.noConfusion h)
  | .null, .int _ => .isFalse (fun h => Val.noConfusion h)
  | .null, .list _ => .isFalse (fun h => Val.noConfusion h)
  | .null, .obj _ => .isFalse (fun h => Val.noConfusion h)
  | .str _, .null => .isFalse (fun h => Val.noConfusion h)
  | .str _, .bool _ => .isFalse (fun h => Val.noConfusion h)
  | .str _, .int _ => .isFalse (fun h => Val.noConfusion h)
  | .str _, .list _ => .isFalse (fun h => Val.noConfusion h)
  | .str _, .obj _ => .isFalse (fun h => Val.noConfusion h)
  | .bool _, .null => .isFalse (fun h => Val.noConfusion h)
  | .bool _, .str _ => .isFalse (fun h => Val.noConfusion h)
  | .bool _, .int _ => .isFalse (fun h => Val.noConfusion h)
  | .bool _, .list _ => .isFalse (fun h => Val.noConfusion h)
  | .bool _, .obj _ => .isFalse (fun h => Val.noConfusion h)
  | .int _, .null => .isFalse (fun h => Val.noConfusion h)
  | .int _, .str _ => .isFalse (fun h => Val.noConfusion h)
  | .int _, .bool _ => .isFalse (fun h => Val.noConfusion h)
  | .int _, .list _ => .isFalse (fun h => Val.noConfusion h)
  | .int _, .obj _ => .isFalse (fun h => Val.noConfusion h)
  | .list _, .null => .isFalse (fun h => Val.noConfusion h)
  | .list _, .str _ => .isFalse (fun h => Val.noConfusion h)
  | .list _, .bool _ => .isFalse (fun h => Val.noConfusion h)
  | .list _, .int _ => .isFalse (fun h => Val.noConfusion h)
  | .list _, .obj _ => .isFalse (fun h => Val.noConfusion h)
  | .obj _, .null => .isFalse (fun h => Val.noConfusion h)
  | .obj _, .str _ => .isFalse (fun h => Val.noConfusion h)
  | .obj _, .bool _ => .isFalse (fun h => Val.noConfusion h)
  | .obj _, .int _ => .isFalse (fun h => Val.noConfusion h)
  | .obj _, .list _ => .isFalse (fun h => Val.noConfusion h)

def valListDecEq : (a b : List Val) → Decidable (a = b)
  | [], [] => .isTrue rfl
  | [], _ :: _ => .isFalse (fun h => List.noConfusion h)
  | _ :: _, [] => .isFalse (fun h => List.noConfusion h)
  | x :: xs, y :: ys =>
      match valDecEq x y, valListDecEq xs ys with
      | .isTrue h1, .isTrue h2 => .isTrue (by rw [h1, h2])
      | .isFalse h1, _ => .isFalse (by intro hh; cases hh; exact h1 rfl)
      | _, .isFalse h2 => .isFalse (by intro hh; cases hh; exact h2 rfl)

def valFieldsDecEq : (a b : List (String × Val)) → Decidable (a = b)
  | [], [] => .isTrue rfl
  | [], _ :: _ => .isFalse (fun h => List.noConfusion h)
  | _ :: _, [] => .isFalse (fun h => List.noConfusion h)
  | (k, x) :: xs, (k', y) :: ys =>
      match decEq k k', valDecEq x y, valFieldsDecEq xs ys with
      | .isTrue hk, .isTrue h1, .isTrue h2 => .isTrue (by rw [hk, h1, h2])
      | .isFalse hk, _, _ => .isFalse (by intro hh; cases hh; exact hk rfl)
      | _, .isFalse h1, _ => .isFalse (by intro hh; cases hh; exact h1 rfl)
      | _, _, .isFalse h2 => .isFalse (by intro hh; cases hh; exact h2 rfl)

end

instance : DecidableEq Val := valDecEq

/-- A listing record: a Python dict with string keys (insertion order kept). -/
abbrev Record := List (String × Val)

/-- Python truthiness of a value (`bool(v)`). -/
def truthy : Val → Bool
  | Val.null => false
  | Val.str s => decide (s ≠ "")
  | Val.bool b => b
  | Val.int n => decide (n ≠ 0)
  | Val.list xs => !xs.isEmpty
  | Val.obj fs => !fs.isEmpty

/-- Python `a or b`: `a` if truthy, else `b`. -/
def pyOr (a b : Val) : Val := if truthy a then a else b

/-- First-match association-list lookup: Python `d[k]` / `k in d`. -/
def alookup {α β : Type} [DecidableEq α] (k : α) : List (α × β) → Option β
  | [] => none
  | kv :: rest => if kv.1 = k then some kv.2 else alookup k rest

/-- Python dict assignment `d[k] = v`: replace in place, else append. -/
def dictSet {α β : Type} [DecidableEq α] : List (α × β) → α → β → List (α × β)
  | [], k, v => [(k, v)]
  | kv :: rest, k, v => if kv.1 = k then (k, v) :: rest else kv :: dictSet rest k v

/-- Replace the value stored at an existing key, keeping its position. -/
def updEntry {α β : Type} [DecidableEq α] (k : α) (v : β) : List (α × β) → List (α × β)
  | [] => []
  | kv :: rest => if kv.1 = k then (k, v) :: rest else kv :: updEntry k v rest

mutual

/-- Python `repr` of a value (string escaping inside `repr` is not modelled;
no classifier keyword contains a quote or backslash). -/
def pyRepr : Val → String
  | Val.null => "None"
  | Val.bool true => "True"
  | Val.bool false => "False"
  | Val.int n => toString n
  | Val.str s => "'" ++ s ++ "'"
  | Val.list xs => "[" ++ String.intercalate ", " (pyReprList xs) ++ "]"
  | Val.obj fs => "\x7b" ++ String.intercalate ", " (pyReprFields fs) ++ "\x7d"

def pyReprList : List Val → List String
  | [] => []
  | v :: vs => pyRepr v :: pyReprList vs

def pyReprFields : List (String × Val) → List String
  | [] => []
  | kv :: rest => ("'" ++ kv.1 ++ "': " ++ pyRepr kv.2) :: pyReprFields rest

end

/-- Python `str` of a value. -/
def pyStr : Val → String
  | Val.str s => s
  | v => pyRepr v

/-- `startsWithL p l`: `p` is an initial segment of `l`. -/
def startsWithL : List Char → List Char → Bool
  | [], _ => true
  | _ :: _, [] => false
  | p :: ps, c :: cs => p = c && startsWithL ps cs

/-- `hasSubList pat l`: `pat` occurs contiguously inside `l`. -/
def hasSubList (pat : List Char) : List Char → Bool
  | [] => startsWithL pat []
  | c :: cs => startsWithL pat (c :: cs) || hasSubList pat cs

/-- Python `pat in s` for strings: substring containment. -/
def strHas (s pat : String) : Bool := hasSubList pat.data s.data

/-- Python `s.startswith(pre)`. -/
def strStarts (s pre : String) : Bool := startsWithL pre.data s.data

/-! ## Field extractor (`safe_get`, identical in both scripts) -/

/-- The `keys` argument of `safe_get`: a single key or a key path. -/
inductive PathOrKey where
  | single (k : String)
  | path (ks : List String)

/-- `safe_get` for a single string key: `data.get(keys, default) or default`. -/
def safe_getKey (data : Record) (k : String) (default : Val) : Val :=
  pyOr ((alookup k data).getD default) default

/-- The key-path walk of `safe_get`: step through nested mappings,
bailing out with `default` on a missing key or non-mapping value. -/
def safe_getPathAux (default : Val) : Val → List String → Val
  | cur, [] => if cur = Val.null then default else cur
  | Val.obj fs, k :: rest =>
      match alookup k fs with
      | some v => safe_getPathAux default v rest
      | none => default
  | _, _ :: _ => default

/-- `safe_get` for a key path. -/
def safe_getPath (data : Record) (ks : List String) (default : Val) : Val :=
  safe_getPathAux default (Val.obj data) ks

/-- `safe_get(data, keys, default)` from both processors. -/
def safe_get (data : Record) (keys : PathOrKey) (default : Val) : Val :=
  match keys with
  | .single k => safe_getKey data k default
  | .path ks => safe_getPath data ks default

/-! ## Text helpers -/

/-- Python `s.lower()` (ASCII case folding, like `Char.toLower`). -/
def strToLower (s : String) : String := String.mk (s.data.map Char.toLower)

/-- Split a character list at whitespace characters. -/
def wsSplit (acc : List Char) : List Char → List String
  | [] => [String.mk acc.reverse]
  | c :: cs =>
      if c.isWhitespace then String.mk acc.reverse :: wsSplit [] cs
      else wsSplit (c :: acc) cs

/-- Whitespace-split of a string with empty pieces dropped (Python `s.split()`). -/
def splitWS (s : String) : List String :=
  (wsSplit [] s.data).filter (fun t => t ≠ "")

/-- `clean_text(text, max_length)`: whitespace-normalise and truncate. -/
def clean_text (text : Val) (maxLength : Option Nat) : String :=
  if !truthy text then ""
  else
    let t := String.intercalate " " (splitWS (pyStr text))
    match maxLength with
    | some m => if 0 < m ∧ m < t.length then (t.take (m - 3)) ++ "..." else t
    | none => t

/-! ## Normalised text corpus (`get_listing_text_content`) -/

/-- Corpus of `process_oci_all_regions.py`: name, short/long description,
tags, keywords, joined and lower-cased. -/
def listingTextAll (l : Record) : String :=
  strToLower (String.intercalate " " [
    pyStr (safe_getKey l "name" (Val.str "")),
    pyStr (safe_getKey l "short-description" (Val.str "")),
    pyStr (safe_getKey l "long-description" (Val.str "")),
    pyStr (safe_getKey l "tags" (Val.list [])),
    pyStr (safe_getKey l "keywords" (Val.list []))])

/-- Corpus of `process_oci_customer.py`: name, short/long description, tags. -/
def listingTextCust (l : Record) : String :=
  strToLower (String.intercalate " " [
    pyStr (safe_getKey l "name" (Val.str "")),
    pyStr (safe_getKey l "short-description" (Val.str "")),
    pyStr (safe_getKey l "long-description" (Val.str "")),
    pyStr (safe_getKey l "tags" (Val.list []))])

/-! ## Classifiers -/

/-- `determine_impact_level` of `process_oci_all_regions.py`. -/
def determine_impact_levelAll (l : Record) : String :=
  let t := listingTextAll l
  if strHas t "il6" || strHas t "impact level 6" then "IL6 (Secret)"
  else if strHas t "il5" || strHas t "impact level 5" then "IL5"
  else if strHas t "il4" || strHas t "impact level 4" then "IL4"
  else if strHas t "il2" || strHas t "impact level 2" then "IL2"
  else "Not Specified"

/-- `determine_impact_level` of `process_oci_customer.py`. -/
def determine_impact_levelCust (l : Record) : String :=
  let t := listingTextCust l
  if strHas t "il6" || strHas t "impact level 6" then "IL6 (Secret)"
  else if strHas t "il5" || strHas t "impact level 5" then "IL5 (CUI High)"
  else if strHas t "il4" || strHas t "impact level 4" then "IL4 (CUI)"
  else if strHas t "il2" || strHas t "impact level 2" then "IL2 (Unclassified)"
  else if ["dod", "defense", "classified"].any (fun s => strHas t s) then "DoD Compatible"
  else "Not Specified"

/-- `determine_fedramp_status` of `process_oci_all_regions.py`. -/
def determine_fedramp_statusAll (l : Record) : String :=
  let t := listingTextAll l
  if strHas t "fedramp high" then "FedRAMP High"
  else if strHas t "fedramp moderate" then "FedRAMP Moderate"
  else if strHas t "fedramp low" || strHas t "fedramp" then "FedRAMP Ready"
  else if ["federal", "government certified", "fisma"].any (fun s => strHas t s) then
    "FedRAMP Candidate"
  else "Not Specified"

/-- `determine_fedramp_status` of `process_oci_customer.py`. -/
def determine_fedramp_statusCust (l : Record) : String :=
  let t := listingTextCust l
  if strHas t "fedramp high" then "FedRAMP High"
  else if strHas t "fedramp moderate" then "FedRAMP Moderate"
  else if strHas t "fedramp low" || strHas t "fedramp authorized" then "FedRAMP Low"
  else if strHas t "fedramp" then "FedRAMP Ready"
  else if ["fisma", "federal compliance"].any (fun s => strHas t s) then "Federal Ready"
  else "Not Specified"

/-- `determine_cmmc_level` of `process_oci_customer.py`. -/
def determine_cmmc_levelCust (l : Record) : String :=
  let t := listingTextCust l
  if strHas t "cmmc level 3" || strHas t "cmmc l3" then "CMMC Level 3"
  else if strHas t "cmmc level 2" || strHas t "cmmc l2" then "CMMC Level 2"
  else if strHas t "cmmc" then "CMMC Level 1+"
  else "Not Specified"

/-- `is_security_focused` of `process_oci_customer.py`. -/
def is_security_focused (l : Record) : Bool :=
  let t := listingTextCust l
  ["security", "firewall", "vpn", "encryption", "auth", "compliance"].any
    (fun s => strHas t s)

/-! ## Publisher and category helpers -/

/-- `get_publisher_name` of `process_oci_all_regions.py` (returns a raw value). -/
def get_publisher_nameAll (l : Record) : Val :=
  let publisher := safe_getKey l "publisher" (Val.obj [])
  match publisher with
  | Val.obj fs =>
      pyOr (pyOr ((alookup "name" fs).getD Val.null)
                 ((alookup "display-name" fs).getD Val.null))
           (Val.str "Unknown")
  | v => if truthy v then Val.str (pyStr v) else Val.str "Unknown"

/-- `get_publisher_name` of `process_oci_customer.py` (returns a cleaned string). -/
def get_publisher_nameCust (l : Record) : String :=
  let publisher := safe_getKey l "publisher" (Val.obj [])
  let fallback :=
    if truthy publisher then clean_text (Val.str (pyStr publisher)) (some 50)
    else "Unknown Publisher"
  match publisher with
  | Val.obj fs =>
      let name := pyOr ((alookup "name" fs).getD Val.null)
                       ((alookup "display-name" fs).getD Val.null)
      if truthy name then clean_text name (some 50) else fallback
  | _ => fallback

/-- `get_category` of `process_oci_all_regions.py` (returns a raw value). -/
def get_categoryAll (l : Record) : Val :=
  let categories := pyOr (safe_getKey l "categories" (Val.str ""))
                         (safe_getKey l "category-facet" (Val.str ""))
  match categories with
  | Val.list (c :: _) => c
  | Val.str s => Val.str s
  | _ => Val.str "Uncategorized"

/-- `get_category` of `process_oci_customer.py` (returns a cleaned string). -/
def get_categoryCust (l : Record) : String :=
  let categories := pyOr (safe_getKey l "categories" (Val.str ""))
                         (safe_getKey l "category-facet" (Val.str ""))
  if truthy categories then
    match categories with
    | Val.list (c :: _) => clean_text c (some 30)
    | Val.str s => clean_text (Val.str s) (some 30)
    | _ => "Uncategorized"
  else "Uncategorized"

/-! ## Scorers -/

/-- The accumulated `score` of `calculate_sales_priority_score` in
`process_oci_all_regions.py`, before the final clamp: base 5, then fixed
increments for publisher tier, government/DoD availability, high-value
category, and recognised FedRAMP status. -/
def rawSalesScoreAll (l : Record) (regions : List String) : Int :=
  let publisher := strToLower (pyStr (get_publisher_nameAll l))
  let tier1 := ["microsoft", "vmware", "palo alto", "fortinet", "splunk", "cisco"]
  let tier2 := ["red hat", "citrix", "f5", "checkpoint", "crowdstrike"]
  let category := strToLower (pyStr (get_categoryAll l))
  let highValue := ["security", "networking", "database", "analytics"]
  5
  + (if tier1.any (fun p => strHas publisher p) then 2
     else if tier2.any (fun p => strHas publisher p) then 1 else 0)
  + (if "us_gov_east" ∈ regions ∨ "us_gov_west" ∈ regions then 1 else 0)
  + (if regions.any (fun k => strStarts k "us_dod") then 2 else 0)
  + (if highValue.any (fun c => strHas category c) then 1 else 0)
  + (if determine_fedramp_statusAll l ≠ "Not Specified" then 1 else 0)

/-- `calculate_sales_priority_score` of `process_oci_all_regions.py`:
the accumulated score clamped by `min(10, max(1, score))`. -/
def calculate_sales_priority_scoreAll (l : Record) (regions : List String) : Int :=
  min 10 (max 1 (rawSalesScoreAll l regions))

/-- The accumulated `score` of `calculate_sales_priority_score` in
`process_oci_customer.py`, before the final clamp. -/
def rawSalesScoreCust (l : Record) (regions : List String) : Int :=
  let publisher := strToLower (get_publisher_nameCust l)
  let tier1 := ["oracle", "microsoft", "vmware", "cisco", "palo alto", "fortinet"]
  let category := strToLower (get_categoryCust l)
  let highValue := ["security", "networking", "database", "analytics", "monitoring"]
  5
  + (if "oc2_us_dod_east" ∈ regions ∨ "oc2_us_dod_west" ∈ regions then 3
     else if regions.any (fun k => strStarts k "oc3_us_gov") then 2
     else if regions.any (fun k => strStarts k "legacy_us_dod") then 1 else 0)
  + (if tier1.any (fun p => strHas publisher p) then 2 else 0)
  + (if highValue.any (fun c => strHas category c) then 1 else 0)

/-- `calculate_sales_priority_score` of `process_oci_customer.py`. -/
def calculate_sales_priority_scoreCust (l : Record) (regions : List String) : Int :=
  min 10 (max 1 (rawSalesScoreCust l regions))

/-- The accumulated `score` of `calculate_gov_sales_priority`
(`process_oci_customer.py`): the OC2/legacy realm increment is an
`if`/`elif` chain, the remaining indicators are independent additions. -/
def rawGovScore (l : Record) (regions : List String) : Int :=
  (if "oc2_us_dod_east" ∈ regions ∨ "oc2_us_dod_west" ∈ regions then 6
   else if regions.any (fun k => strStarts k "legacy_us_dod") then 4 else 0)
  + (if "oc3_us_gov_east" ∈ regions ∨ "oc3_us_gov_west" ∈ regions then 3 else 0)
  + (if is_security_focused l then 2 else 0)
  + (if determine_fedramp_statusCust l ≠ "Not Specified" then 1 else 0)
  + (if determine_cmmc_levelCust l ≠ "Not Specified" then 1 else 0)

/-- The threshold bucketing at the end of `calculate_gov_sales_priority`. -/
def govBucket (score : Int) : String :=
  if score ≥ 8 then "CRITICAL"
  else if score ≥ 5 then "HIGH"
  else if score ≥ 3 then "MEDIUM"
  else "LOW"

/-- `calculate_gov_sales_priority` of `process_oci_customer.py`. -/
def calculate_gov_sales_priority (l : Record) (regions : List String) : String :=
  govBucket (rawGovScore l regions)

/-! ## Consolidator (`consolidate_unique_listings`)

Raw listing records live in a `store`; the canonical entry for an
identifier keeps the index of the raw record it aliases (`recIdx`):
Python merges write through that alias. -/

/-- A value of `self.unique_listings[listing_id]`. -/
structure CanonEntry where
  recIdx : Nat
  regions : List String
  primary_region : String
  region_names : List String
deriving DecidableEq

/-- Consolidation state: the raw-record heap plus `self.unique_listings`. -/
structure ConsState where
  store : List Record
  unique : List (Val × CanonEntry)
deriving DecidableEq

/-- `listing.get('id', '')`. -/
def extId (r : Record) : Val := (alookup "id" r).getD (Val.str "")

/-- The merge loop `for key, value in listing.items(): if key not in existing
or <emptyP existing[key]>: existing[key] = value`. -/
def mergeFields (emptyP : Val → Bool) (existing incoming : Record) : Record :=
  incoming.foldl (fun ex kv =>
    match alookup kv.1 ex with
    | none => dictSet ex kv.1 kv.2
    | some w => if emptyP w then dictSet ex kv.1 kv.2 else ex) existing

/-- Emptiness test of `process_oci_all_regions.py`: `existing[key] is None`. -/
def isNoneVal : Val → Bool
  | Val.null => true
  | _ => false

/-- Emptiness test of `process_oci_customer.py`:
`existing[key] is None or existing[key] == ''`. -/
def isNoneOrEmptyStr : Val → Bool
  | Val.null => true
  | Val.str s => decide (s = "")
  | _ => false

/-- The `region_mapping` dict of `process_oci_customer.py`
(`region_mapping.get(region_key, region_key)`). -/
def region_mapping : String → String := fun k =>
  if k = "commercial" then "Commercial (OC1)"
  else if k = "oc3_us_gov_east" then "US Gov East (OC3)"
  else if k = "oc3_us_gov_west" then "US Gov West (OC3)"
  else if k = "oc2_us_dod_east" then "DoD East/Langley (OC2)"
  else if k = "oc2_us_dod_west" then "DoD West/Luke (OC2)"
  else if k = "legacy_us_dod_east" then "Legacy DoD East"
  else if k = "legacy_us_dod_central" then "Legacy DoD Central"
  else if k = "legacy_us_dod_west" then "Legacy DoD West"
  else k

/-- The bookkeeping update on an existing canonical entry when its listing is
seen again in region `rk`: `regions[region_key] = True`, and (customer script
only, `nm = some f`) the `region_names` membership-checked append. -/
def mergedEntry (nm : Option (String → String)) (rk : String)
    (e : CanonEntry) : CanonEntry :=
  { e with
    regions := if rk ∈ e.regions then e.regions else e.regions ++ [rk],
    region_names := match nm with
      | none => e.region_names
      | some f =>
          if f rk ∈ e.region_names then e.region_names
          else e.region_names ++ [f rk] }

/-- One iteration of the consolidation loop for the record at `idx` seen in
region `rk`. `nm = none` is the all-regions script (no `region_names`);
`nm = some f` is the customer script with its name mapping. -/
def consStep (emptyP : Val → Bool) (nm : Option (String → String))
    (s : ConsState) (rk : String) (idx : Nat) : ConsState :=
  let listing := s.store.getD idx []
  let lid := extId listing
  match alookup lid s.unique with
  | none =>
      { s with unique := s.unique ++ [(lid,
          { recIdx := idx, regions := [rk], primary_region := rk,
            region_names := match nm with | none => [] | some f => [f rk] })] }
  | some e =>
      let merged := mergeFields emptyP (s.store.getD e.recIdx []) listing
      { store := s.store.set e.recIdx merged,
        unique := updEntry lid (mergedEntry nm rk e) s.unique }

/-- The full consolidation pass over a sequence of (region key, record index). -/
def consolidate (emptyP : Val → Bool) (nm : Option (String → String))
    (s : ConsState) (ins : List (String × Nat)) : ConsState :=
  ins.foldl (fun s a => consStep emptyP nm s a.1 a.2) s

/-- `self.all_listings.items()` flattened to (region key, record) pairs in
iteration order. -/
def flattenRegions : List (String × List Record) → List (String × Record)
  | [] => []
  | (rk, ls) :: rest => ls.map (fun l => (rk, l)) ++ flattenRegions rest

/-- The raw-record heap built from the loaded region data. -/
def initialStore (rd : List (String × List Record)) : List Record :=
  (flattenRegions rd).map Prod.snd

/-- The consolidation inputs: each loaded record with its region key and its
heap index, in processing order. -/
def inputSeq (rd : List (String × List Record)) : List (String × Nat) :=
  (List.range (flattenRegions rd).length).map
    (fun i => (((flattenRegions rd).getD i ("", [])).1, i))

/-- Run `consolidate_unique_listings` from a fresh processor state. -/
def runConsolidation (emptyP : Val → Bool) (nm : Option (String → String))
    (rd : List (String × List Record)) : ConsState :=
  consolidate emptyP nm ⟨initialStore rd, []⟩ (inputSeq rd)

/-- `consolidate_unique_listings` of `process_oci_all_regions.py`. -/
def runAll (rd : List (String × List Record)) : ConsState :=
  runConsolidation isNoneVal none rd

/-- `consolidate_unique_listings` of `process_oci_customer.py`. -/
def runCust (rd : List (String × List Record)) : ConsState :=
  runConsolidation isNoneOrEmptyStr (some region_mapping) rd

/-- All records loaded from the regions have duplicate-free keys
(they are parsed JSON objects). -/
def recordsNodup (rd : List (String × List Record)) : Prop :=
  ∀ r ∈ initialStore rd, (r.map Prod.fst).Nodup

/-! ## Spec-side definitions (for refinement comparisons) -/

/-- Modelled from the spec's words (§4.2): chase the key path through nested
mappings, failing on an absent key or non-mapping intermediate value. -/
def resolveSpec : Val → List String → Option Val
  | v, [] => some v
  | Val.obj fs, k :: rest =>
      match alookup k fs with
      | some v => resolveSpec v rest
      | none => none
  | _, _ :: _ => none

/-- The government priority exactly as claim C9 words it: an independent
additive sum over all six indicators (both DoD realm increments may add),
bucketed by the fixed thresholds. -/
def govScoreSpecAdd (l : Record) (regions : List String) : Int :=
  (if "oc2_us_dod_east" ∈ regions ∨ "oc2_us_dod_west" ∈ regions then 6 else 0)
  + (if regions.any (fun k => strStarts k "legacy_us_dod") then 4 else 0)
  + (if "oc3_us_gov_east" ∈ regions ∨ "oc3_us_gov_west" ∈ regions then 3 else 0)
  + (if is_security_focused l then 2 else 0)
  + (if determine_fedramp_statusCust l ≠ "Not Specified" then 1 else 0)
  + (if determine_cmmc_levelCust l ≠ "Not Specified" then 1 else 0)

/-- The amended claim-C9 government priority: the DoD-current realm increment
(6) takes precedence over DoD-legacy (4) via an exclusive choice; the other
four indicators contribute independently; thresholds unchanged. -/
def govPriorityAmended (l : Record) (regions : List String) : String :=
  let realm : Int :=
    if "oc2_us_dod_east" ∈ regions ∨ "oc2_us_dod_west" ∈ regions then 6
    else if regions.any (fun k => strStarts k "legacy_us_dod") then 4 else 0
  let rest : List Int :=
    [if "oc3_us_gov_east" ∈ regions ∨ "oc3_us_gov_west" ∈ regions then 3 else 0,
     if is_security_focused l then 2 else 0,
     if determine_fedramp_statusCust l ≠ "Not Specified" then 1 else 0,
     if determine_cmmc_levelCust l ≠ "Not Specified" then 1 else 0]
  let total := realm + rest.sum
  if total ≥ 8 then "CRITICAL"
  else if total ≥ 5 then "HIGH"
  else if total ≥ 3 then "MEDIUM"
  else "LOW"

/-! ## Merge analysis helpers -/

/-- The effect of one merge-offer `v` on the value currently held at a key:
absent or empty values take the offer, non-empty values keep theirs. -/
def mOpt (p : Val → Bool) (a : Option Val) (v : Val) : Option Val :=
  match a with
  | none => some v
  | some w => if p w then some v else some w

/-- The values a record offers for key `k`, in order. -/
def kvals (k : String) (r : Record) : List Val :=
  (r.filter (fun kv => decide (kv.1 = k))).map Prod.snd

/-- First-occurrence deduplication, as built incrementally by dict/list
membership checks in the consolidator. -/
def dedupR {α : Type} [DecidableEq α] (l : List α) : List α :=
  l.foldl (fun acc x => if x ∈ acc then acc else acc ++ [x]) []

/-- The identifier the consolidator extracts for the raw record at heap
index `i` of the initial store. -/
def origId (store0 : List Record) (i : Nat) : Val := extId (store0.getD i [])

/-- The consolidation inputs whose record carries identifier `X`. -/
def inputsOf (store0 : List Record) (X : Val) (l : List (String × Nat)) :
    List (String × Nat) :=
  l.filter (fun a => decide (origId store0 a.2 = X))

/-- State invariant of the consolidation pass, after processing the prefix
`pr` of the inputs starting from the fresh state over `store0`. -/
structure ConsInv (p : Val → Bool) (nm : Option (String → String))
    (store0 : List Record) (pr : List (String × Nat)) (s : ConsState) : Prop where
  lenEq : s.store.length = store0.length
  keysEq : s.unique.map Prod.fst = dedupR (pr.map (fun a => origId store0 a.2))
  entry : ∀ X e, alookup X s.unique = some e →
      ∃ a rest, inputsOf store0 X pr = a :: rest ∧
        e.recIdx = a.2 ∧ e.primary_region = a.1 ∧
        e.regions = dedupR ((inputsOf store0 X pr).map Prod.fst) ∧
        e.region_names = (match nm with
          | none => []
          | some f => dedupR (((inputsOf store0 X pr).map Prod.fst).map f)) ∧
        s.store.getD e.recIdx [] =
          (rest.map (fun b => store0.getD b.2 [])).foldl
            (mergeFields p) (store0.getD a.2 [])
  untouched : ∀ i, (∀ X e, alookup X s.unique = some e → e.recIdx ≠ i) →
      s.store.getD i [] = store0.getD i []
  recBound : ∀ X e, alookup X s.unique = some e → e.recIdx < store0.length

/-- State invariant of a second consolidation pass (same inputs `ins`,
starting from the result `s1` of the first pass), after processing the
prefix `pr` of the replayed inputs. -/
structure Pass2Inv (p : Val → Bool) (store0 : List Record)
    (s1 : ConsState) (pr : List (String × Nat)) (t : ConsState) : Prop where
  uniqueEq : t.unique = s1.unique
  lenEq : t.store.length = s1.store.length
  untouched : ∀ i, (∀ X e, alookup X s1.unique = some e → e.recIdx ≠ i) →
      t.store.getD i [] = s1.store.getD i []
  canon : ∀ X e, alookup X s1.unique = some e →
      t.store.getD e.recIdx [] =
        List.foldl (mergeFields p) (s1.store.getD e.recIdx [])
          (((inputsOf store0 X pr).drop 1).map (fun b => store0.getD b.2 []))

/-! ## Concrete example inputs -/

/-- Identifier X in region A with empty description, then region B with
description "bar" (the spec's first-non-empty-wins example). -/
def rdDescEmptyFirst : List (String × List Record) :=
  [("A", [[("id", Val.str "X"), ("description", Val.str "")]]),
   ("B", [[("id", Val.str "X"), ("description", Val.str "bar")]])]

/-- Identifier X in region A with description "foo", then region B with
description "bar". -/
def rdDescFooFirst : List (String × List Record) :=
  [("A", [[("id", Val.str "X"), ("description", Val.str "foo")]]),
   ("B", [[("id", Val.str "X"), ("description", Val.str "bar")]])]

/-- Two records with no identifier field at all, in different regions. -/
def rdNoId : List (String × List Record) :=
  [("A", [[("name", Val.str "n")]]), ("B", [[("other", Val.str "m")]])]

/-- A record with no identifier field (region A), a record whose identifier
is the empty string (region B), and a record whose identifier is null
(region C). -/
def rdBlankId : List (String × List Record) :=
  [("A", [[("name", Val.str "n")]]),
   ("B", [[("id", Val.str ""), ("other", Val.str "m")]]),
   ("C", [[("id", Val.null), ("x", Val.str "q")]])]

/-- Identifier X twice; the second sighting carries an extra field. -/
def rdAlias : List (String × List Record) :=
  [("A", [[("id", Val.str "X")]]),
   ("B", [[("id", Val.str "X"), ("d", Val.str "v")]])]

/-- Identifier X in three regions. -/
def rdThreeRegions : List (String × List Record) :=
  [("A", [[("id", Val.str "X"), ("f", Val.str "1")]]),
   ("B", [[("id", Val.str "X"), ("f", Val.str "2")]]),
   ("C", [[("id", Val.str "X"), ("g", Val.str "3")]])]

/-- A listing that triggers every increment of the all-regions sales score. -/
def salesListingEx : Record :=
  [("name", Val.str "FedRAMP tool"),
   ("publisher", Val.obj [("name", Val.str "Microsoft")]),
   ("categories", Val.list [Val.str "Security"])]

/-- Regions granting both the government and the DoD availability boost. -/
def salesRegionsEx : List String := ["us_gov_east", "us_dod_east"]

/-- A region set inside both a DoD-current realm and a DoD-legacy realm. -/
def govRegionsEx : List String := ["oc2_us_dod_east", "legacy_us_dod_east"]

/-- A listing whose corpus mentions both IL4 and IL6. -/
def ilListingEx : Record := [("name", Val.str "Supports IL4 and IL6")]

/-! ## Association-list lemmas -/

theorem alookup_eq_none_iff {α β : Type} [DecidableEq α] (k : α) (l : List (α × β)) :
    alookup k l = none ↔ k ∉ l.map Prod.fst := by
  induction l with
  | nil => simp [alookup]
  | cons kv rest ih =>
      by_cases h : kv.1 = k
      · simp [alookup, h]
      · simp [alookup, h, ih, Ne.symm h]

theorem mem_keys_of_alookup {α β : Type} [DecidableEq α] {k : α} {v : β}
    {l : List (α × β)} (h : alookup k l = some v) : k ∈ l.map Prod.fst := by
  by_contra hk
  rw [← alookup_eq_none_iff k l] at hk
  rw [h] at hk
  exact Option.noConfusion hk

theorem alookup_exists_of_mem_keys {α β : Type} [DecidableEq α] {k : α}
    {l : List (α × β)} (h : k ∈ l.map Prod.fst) : ∃ v, alookup k l = some v := by
  cases hl : alookup k l with
  | none => exact absurd h ((alookup_eq_none_iff k l).1 hl)
  | some v => exact ⟨v, rfl⟩

theorem alookup_append {α β : Type} [DecidableEq α] (k : α) (l m : List (α × β)) :
    alookup k (l ++ m) =
      match alookup k l with
      | some v => some v
      | none => alookup k m := by
  induction l with
  | nil => simp [alookup]
  | cons kv rest ih =>
      by_cases h : kv.1 = k
      · simp [alookup, h]
      · simp [alookup, h, ih]

theorem alookup_of_mem_nodup {α β : Type} [DecidableEq α] {k : α} {v : β} :
    ∀ {l : List (α × β)}, (k, v) ∈ l → (l.map Prod.fst).Nodup → alookup k l = some v := by
  intro l
  induction l with
  | nil => intro h; cases h
  | cons kv rest ih =>
      intro hmem hnd
      rw [List.map_cons] at hnd
      rcases List.mem_cons.1 hmem with heq | htail
      · rw [← heq]; simp [alookup]
      · have hk : kv.1 ≠ k := by
          intro hkk
          have : k ∈ rest.map Prod.fst := List.mem_map.2 ⟨(k, v), htail, rfl⟩
          exact (List.nodup_cons.1 hnd).1 (hkk ▸ this)
        simp [alookup, hk, ih htail (List.nodup_cons.1 hnd).2]

theorem alookup_dictSet_eq {α β : Type} [DecidableEq α] (r : List (α × β)) (k : α) (v : β) :
    alookup k (dictSet r k v) = some v := by
  induction r with
  | nil => simp [dictSet, alookup]
  | cons kv rest ih =>
      by_cases h : kv.1 = k
      · simp [dictSet, h, alookup]
      · simp [dictSet, h, alookup, ih]

theorem alookup_dictSet_ne {α β : Type} [DecidableEq α] (r : List (α × β))
    {k' k : α} (v : β) (h : k' ≠ k) : alookup k' (dictSet r k v) = alookup k' r := by
  have h1 : ¬(k = k') := fun he => h he.symm
  induction r with
  | nil => simp [dictSet, alookup, h1]
  | cons kv rest ih =>
      simp only [dictSet]
      by_cases hh : kv.1 = k
      · have h2 : ¬(kv.1 = k') := fun he => h1 (hh ▸ he)
        rw [if_pos hh]
        simp [alookup, h1, h2]
      · rw [if_neg hh]
        by_cases h2 : kv.1 = k'
        · simp [alookup, h2]
        · simp [alookup, h2, ih]

theorem keys_dictSet_of_mem {α β : Type} [DecidableEq α] {r : List (α × β)} {k : α}
    (v : β) (h : k ∈ r.map Prod.fst) :
    (dictSet r k v).map Prod.fst = r.map Prod.fst := by
  induction r with
  | nil => cases h
  | cons kv rest ih =>
      rw [List.map_cons] at h
      by_cases hh : kv.1 = k
      · simp [dictSet, hh]
      · have : k ∈ rest.map Prod.fst := by
          rcases List.mem_cons.1 h with h1 | h1
          · exact absurd h1.symm hh
          · exact h1
        simp [dictSet, hh, ih this]

theorem keys_dictSet_of_not_mem {α β : Type} [DecidableEq α] {r : List (α × β)} {k : α}
    (v : β) (h : k ∉ r.map Prod.fst) :
    (dictSet r k v).map Prod.fst = r.map Prod.fst ++ [k] := by
  induction r with
  | nil => simp [dictSet]
  | cons kv rest ih =>
      have hh : kv.1 ≠ k := by
        intro heq; exact h (by simp [heq])
      have : k ∉ rest.map Prod.fst := fun hk => h (by simp [hk])
      simp [dictSet, hh, ih this]

theorem nodup_keys_dictSet {α β : Type} [DecidableEq α] {r : List (α × β)} (k : α)
    (v : β) (h : (r.map Prod.fst).Nodup) :
    ((dictSet r k v).map Prod.fst).Nodup := by
  by_cases hk : k ∈ r.map Prod.fst
  · rw [keys_dictSet_of_mem v hk]; exact h
  · rw [keys_dictSet_of_not_mem v hk]
    apply List.Nodup.append h (List.nodup_singleton k)
    intro a ha1 ha2
    rw [List.mem_singleton] at ha2
    exact hk (ha2 ▸ ha1)

theorem mem_keys_dictSet_self {α β : Type} [DecidableEq α] (r : List (α × β))
    (k : α) (v : β) : k ∈ (dictSet r k v).map Prod.fst := by
  by_cases hk : k ∈ r.map Prod.fst
  · rw [keys_dictSet_of_mem v hk]; exact hk
  · rw [keys_dictSet_of_not_mem v hk]; simp

theorem mem_keys_dictSet_mono {α β : Type} [DecidableEq α] {r : List (α × β)}
    {k' : α} (k : α) (v : β) (h : k' ∈ r.map Prod.fst) :
    k' ∈ (dictSet r k v).map Prod.fst := by
  by_cases hk : k ∈ r.map Prod.fst
  · rw [keys_dictSet_of_mem v hk]; exact h
  · rw [keys_dictSet_of_not_mem v hk]; simp [h]

theorem dictSet_self {α β : Type} [DecidableEq α] {r : List (α × β)} {k : α} {v : β}
    (h : alookup k r = some v) : dictSet r k v = r := by
  induction r with
  | nil => simp [alookup] at h
  | cons kv rest ih =>
      obtain ⟨a, b⟩ := kv
      by_cases hh : a = k
      · subst hh
        have hb : b = v := by
          have := h
          simp [alookup] at this
          exact this
        subst hb
        simp [dictSet]
      · have h' : alookup k rest = some v := by
          have := h
          simpa [alookup, hh] using this
        simp [dictSet, hh, ih h']

theorem updEntry_self {α β : Type} [DecidableEq α] {l : List (α × β)} {k : α} {v : β}
    (h : alookup k l = some v) : updEntry k v l = l := by
  induction l with
  | nil => rfl
  | cons kv rest ih =>
      obtain ⟨a, b⟩ := kv
      by_cases hh : a = k
      · subst hh
        have hb : b = v := by
          have := h
          simp [alookup] at this
          exact this
        subst hb
        simp [updEntry]
      · have h' : alookup k rest = some v := by
          have := h
          simpa [alookup, hh] using this
        simp [updEntry, hh, ih h']

theorem alookup_updEntry_ne {α β : Type} [DecidableEq α] (l : List (α × β))
    {k' k : α} (v : β) (h : k' ≠ k) : alookup k' (updEntry k v l) = alookup k' l := by
  have h1 : ¬(k = k') := fun he => h he.symm
  induction l with
  | nil => simp [updEntry]
  | cons kv rest ih =>
      simp only [updEntry]
      by_cases hh : kv.1 = k
      · have h2 : ¬(kv.1 = k') := fun he => h1 (hh ▸ he)
        rw [if_pos hh]
        simp [alookup, h1, h2]
      · rw [if_neg hh]
        by_cases h2 : kv.1 = k'
        · simp [alookup, h2]
        · simp [alookup, h2, ih]

theorem alookup_updEntry_eq {α β : Type} [DecidableEq α] {l : List (α × β)} {k : α}
    (v : β) (h : k ∈ l.map Prod.fst) : alookup k (updEntry k v l) = some v := by
  induction l with
  | nil => cases h
  | cons kv rest ih =>
      rw [List.map_cons] at h
      by_cases hh : kv.1 = k
      · simp [updEntry, hh, alookup]
      · have : k ∈ rest.map Prod.fst := by
          rcases List.mem_cons.1 h with h1 | h1
          · exact absurd h1.symm hh
          · exact h1
        simp [updEntry, hh, alookup, ih this]

theorem keys_updEntry {α β : Type} [DecidableEq α] (l : List (α × β)) (k : α) (v : β) :
    (updEntry k v l).map Prod.fst = l.map Prod.fst := by
  induction l with
  | nil => rfl
  | cons kv rest ih =>
      by_cases hh : kv.1 = k
      · simp [updEntry, hh]
      · simp [updEntry, hh, ih]

theorem alist_ext {α β : Type} [DecidableEq α] :
    ∀ (l1 l2 : List (α × β)), l1.map Prod.fst = l2.map Prod.fst →
    (l1.map Prod.fst).Nodup → (∀ k, alookup k l1 = alookup k l2) → l1 = l2 := by
  intro l1
  induction l1 with
  | nil =>
      intro l2 hk _ _
      cases l2 with
      | nil => rfl
      | cons kv rest => simp at hk
  | cons kv rest ih =>
      intro l2 hk hnd hl
      cases l2 with
      | nil => simp at hk
      | cons kv' rest' =>
          simp only [List.map_cons, List.cons.injEq] at hk
          obtain ⟨hk1, hk2⟩ := hk
          have hv : kv.2 = kv'.2 := by
            have h0 := hl kv.1
            simp only [alookup, if_pos rfl] at h0
            rw [if_pos hk1.symm] at h0
            exact Option.some.inj h0
          rw [List.map_cons] at hnd
          have hnd' := List.nodup_cons.1 hnd
          have htl : rest = rest' := by
            apply ih rest' hk2 hnd'.2
            intro k
            by_cases hkk : k = kv.1
            · have h1 : alookup k rest = none := by
                rw [alookup_eq_none_iff]; rw [hkk]; exact hnd'.1
              have h2 : alookup k rest' = none := by
                rw [alookup_eq_none_iff]; rw [hkk, ← hk2]; exact hnd'.1
              rw [h1, h2]
            · have h0 := hl k
              have hne : ¬(kv.1 = k) := fun he => hkk he.symm
              have hne' : ¬(kv'.1 = k) := fun he => hkk (hk1 ▸ he).symm
              simpa [alookup, hne, hne'] using h0
          have hkv : kv = kv' := by
            obtain ⟨a, b⟩ := kv
            obtain ⟨a', b'⟩ := kv'
            simp only at hk1 hv
            rw [hk1, hv]
          rw [hkv, htl]

/-! ## Deduplication lemmas -/

theorem dedupR_append_singleton {α : Type} [DecidableEq α] (l : List α) (x : α) :
    dedupR (l ++ [x]) = if x ∈ dedupR l then dedupR l else dedupR l ++ [x] := by
  simp [dedupR, List.foldl_append]

theorem mem_foldl_dedupAdd {α : Type} [DecidableEq α] :
    ∀ (l : List α) (acc : List α) (x : α),
    x ∈ l.foldl (fun acc x => if x ∈ acc then acc else acc ++ [x]) acc ↔
      x ∈ acc ∨ x ∈ l := by
  intro l
  induction l with
  | nil => simp
  | cons y rest ih =>
      intro acc x
      rw [List.foldl_cons]
      by_cases hy : y ∈ acc
      · rw [if_pos hy, ih]
        constructor
        · rintro (h | h)
          · exact Or.inl h
          · exact Or.inr (List.mem_cons_of_mem y h)
        · rintro (h | h)
          · exact Or.inl h
          · rcases List.mem_cons.1 h with h1 | h1
            · exact Or.inl (by rw [h1]; exact hy)
            · exact Or.inr h1
      · rw [if_neg hy, ih]
        constructor
        · rintro (h | h)
          · rcases List.mem_append.1 h with h1 | h1
            · exact Or.inl h1
            · have hxy : x = y := List.mem_singleton.1 h1
              exact Or.inr (by rw [hxy]; exact List.mem_cons_self y rest)
          · exact Or.inr (List.mem_cons_of_mem y h)
        · rintro (h | h)
          · exact Or.inl (List.mem_append.2 (Or.inl h))
          · rcases List.mem_cons.1 h with h1 | h1
            · exact Or.inl (List.mem_append.2 (Or.inr (by rw [h1]; exact List.mem_singleton_self y)))
            · exact Or.inr h1

theorem mem_dedupR {α : Type} [DecidableEq α] (l : List α) (x : α) :
    x ∈ dedupR l ↔ x ∈ l := by
  rw [dedupR, mem_foldl_dedupAdd]
  simp

theorem nodup_foldl_dedupAdd {α : Type} [DecidableEq α] :
    ∀ (l : List α) (acc : List α), acc.Nodup →
    (l.foldl (fun acc x => if x ∈ acc then acc else acc ++ [x]) acc).Nodup := by
  intro l
  induction l with
  | nil => intro acc h; exact h
  | cons y rest ih =>
      intro acc h
      rw [List.foldl_cons]
      by_cases hy : y ∈ acc
      · rw [if_pos hy]; exact ih acc h
      · rw [if_neg hy]
        apply ih
        apply List.Nodup.append h (List.nodup_singleton y)
        intro a ha1 ha2
        rw [List.mem_singleton] at ha2
        exact hy (ha2 ▸ ha1)

theorem nodup_dedupR {α : Type} [DecidableEq α] (l : List α) : (dedupR l).Nodup :=
  nodup_foldl_dedupAdd l [] List.nodup_nil

/-! ## Merge-offer chain lemmas -/

theorem getLast?_cons_exists {α : Type} (a : α) (l : List α) :
    ∃ u, (a :: l).getLast? = some u := by
  induction l generalizing a with
  | nil => exact ⟨a, rfl⟩
  | cons b rest ih =>
      obtain ⟨u, hu⟩ := ih b
      exact ⟨u, by rw [List.getLast?_cons_cons]; exact hu⟩

theorem getLast?_none_imp_nil {α : Type} {l : List α} (h : l.getLast? = none) :
    l = [] := by
  cases l with
  | nil => rfl
  | cons a b =>
      obtain ⟨u, hu⟩ := getLast?_cons_exists a b
      rw [hu] at h
      exact Option.noConfusion h

theorem foldl_mOpt_stable (p : Val → Bool) {w : Val} (hw : p w = false) :
    ∀ vs : List Val, vs.foldl (mOpt p) (some w) = some w := by
  intro vs
  induction vs with
  | nil => rfl
  | cons v rest ih => simp [List.foldl_cons, mOpt, hw, ih]

theorem foldl_mOpt_isSome (p : Val → Bool) :
    ∀ (vs : List Val) (w : Val), (vs.foldl (mOpt p) (some w)).isSome := by
  intro vs
  induction vs with
  | nil => intro w; rfl
  | cons v rest ih =>
      intro w
      simp only [List.foldl_cons, mOpt]
      by_cases hw : p w = true
      · rw [if_pos hw]; exact ih v
      · rw [if_neg hw]; exact ih w

theorem foldl_mOpt_allEmpty (p : Val → Bool) :
    ∀ (vs : List Val), (∀ v ∈ vs, p v = true) →
    ∀ (x : Option Val), (x = none ∨ ∃ w, x = some w ∧ p w = true) →
    vs.foldl (mOpt p) x =
      match vs.getLast? with
      | some v => some v
      | none => x := by
  intro vs
  induction vs with
  | nil => intro _ x _; rfl
  | cons v rest ih =>
      intro hall x hx
      have hv : p v = true := hall v (List.mem_cons_self v rest)
      have hstep : mOpt p x v = some v := by
        rcases hx with h | ⟨w, hw, hpw⟩
        · rw [h]; rfl
        · rw [hw]; simp [mOpt, hpw]
      rw [List.foldl_cons, hstep]
      have hrest : ∀ u ∈ rest, p u = true := fun u hu => hall u (List.mem_cons_of_mem v hu)
      rw [ih hrest (some v) (Or.inr ⟨v, rfl, hv⟩)]
      cases rest with
      | nil => simp
      | cons u rest' =>
          obtain ⟨u', hu'⟩ := getLast?_cons_exists u rest'
          rw [List.getLast?_cons_cons, hu']

theorem foldl_mOpt_found (p : Val → Bool) :
    ∀ (vs : List Val) (x : Option Val) (v0 : Val), v0 ∈ vs → p v0 = false →
    ∃ u, vs.foldl (mOpt p) x = some u ∧ p u = false := by
  intro vs
  induction vs with
  | nil => intro x v0 h; cases h
  | cons v rest ih =>
      intro x v0 hmem hp
      rcases List.mem_cons.1 hmem with heq | htail
      · subst heq
        have hcase : ∃ u, mOpt p x v0 = some u ∧ (u = v0 ∨ p u = false) := by
          cases x with
          | none => exact ⟨v0, rfl, Or.inl rfl⟩
          | some w =>
              by_cases hw : p w = true
              · exact ⟨v0, by simp [mOpt, hw], Or.inl rfl⟩
              · refine ⟨w, by simp [mOpt, hw], Or.inr ?_⟩
                simpa using hw
        obtain ⟨u, hu, hcase2⟩ := hcase
        have hpu : p u = false := by
          rcases hcase2 with h1 | h1
          · rw [h1]; exact hp
          · exact h1
        rw [List.foldl_cons, hu]
        exact ⟨u, foldl_mOpt_stable p hpu rest, hpu⟩
      · rw [List.foldl_cons]
        exact ih (mOpt p x v) v0 htail hp

theorem foldl_mOpt_idem (p : Val → Bool) (vs : List Val) (x : Option Val) :
    vs.foldl (mOpt p) (vs.foldl (mOpt p) x) = vs.foldl (mOpt p) x := by
  cases hx : vs.foldl (mOpt p) x with
  | none =>
      cases vs with
      | nil => rfl
      | cons v rest =>
          exfalso
          rw [List.foldl_cons] at hx
          have h1 : ∃ w, mOpt p x v = some w := by
            cases x with
            | none => exact ⟨v, rfl⟩
            | some w =>
                by_cases hw : p w = true
                · exact ⟨v, by simp [mOpt, hw]⟩
                · exact ⟨w, by simp [mOpt, hw]⟩
          obtain ⟨w, hw⟩ := h1
          rw [hw] at hx
          have h2 := foldl_mOpt_isSome p rest w
          rw [hx] at h2
          exact Bool.noConfusion h2
  | some w =>
      by_cases hw : p w = true
      · by_cases hall : ∀ v ∈ vs, p v = true
        · have hcase : x = none ∨ (∃ w0, x = some w0 ∧ p w0 = true) ∨
              (∃ w0, x = some w0 ∧ p w0 = false) := by
            cases x with
            | none => exact Or.inl rfl
            | some w0 =>
                cases h : p w0 with
                | true => exact Or.inr (Or.inl ⟨w0, rfl, h⟩)
                | false => exact Or.inr (Or.inr ⟨w0, rfl, h⟩)
          cases hlast : vs.getLast? with
          | some u =>
              rw [foldl_mOpt_allEmpty p vs hall (some w) (Or.inr ⟨w, rfl, hw⟩), hlast]
              rcases hcase with h0 | h0 | h0
              · rw [foldl_mOpt_allEmpty p vs hall x (Or.inl h0), hlast] at hx
                exact hx
              · rw [foldl_mOpt_allEmpty p vs hall x (Or.inr h0), hlast] at hx
                exact hx
              · obtain ⟨w0, hw0, hpw0⟩ := h0
                rw [hw0, foldl_mOpt_stable p hpw0 vs] at hx
                cases hx
                rw [hw] at hpw0
                exact Bool.noConfusion hpw0
          | none =>
              rw [getLast?_none_imp_nil hlast]
              rfl
        · push_neg at hall
          obtain ⟨v0, hv0mem, hv0⟩ := hall
          have hv0' : p v0 = false := by
            cases h : p v0 with
            | false => rfl
            | true => exact absurd h hv0
          obtain ⟨u, hu, hpu⟩ := foldl_mOpt_found p vs x v0 hv0mem hv0'
          rw [hx] at hu
          cases hu
          rw [hw] at hpu
          exact Bool.noConfusion hpu
      · have hwf : p w = false := by
          cases h : p w with
          | false => rfl
          | true => exact absurd h hw
        exact foldl_mOpt_stable p hwf vs

/-! ## Merge-field lemmas -/

theorem bool_false_of_not_true {b : Bool} (h : ¬b = true) : b = false := by
  cases b
  · rfl
  · exact absurd rfl h

theorem mergeFields_cons_none (p : Val → Bool) (ex : Record) (kv : String × Val)
    (rest : Record) (h : alookup kv.1 ex = none) :
    mergeFields p ex (kv :: rest) = mergeFields p (dictSet ex kv.1 kv.2) rest := by
  simp [mergeFields, h]

theorem mergeFields_cons_write (p : Val → Bool) (ex : Record) (kv : String × Val)
    (rest : Record) (w : Val) (h : alookup kv.1 ex = some w) (hw : p w = true) :
    mergeFields p ex (kv :: rest) = mergeFields p (dictSet ex kv.1 kv.2) rest := by
  simp [mergeFields, h, hw]

theorem mergeFields_cons_keep (p : Val → Bool) (ex : Record) (kv : String × Val)
    (rest : Record) (w : Val) (h : alookup kv.1 ex = some w) (hw : p w = false) :
    mergeFields p ex (kv :: rest) = mergeFields p ex rest := by
  simp [mergeFields, h, hw]

theorem kvals_cons_eq (k : String) (kv : String × Val) (rest : Record)
    (h : kv.1 = k) : kvals k (kv :: rest) = kv.2 :: kvals k rest := by
  simp [kvals, List.filter_cons, h]

theorem kvals_cons_ne (k : String) (kv : String × Val) (rest : Record)
    (h : ¬kv.1 = k) : kvals k (kv :: rest) = kvals k rest := by
  simp [kvals, List.filter_cons, h]

theorem alookup_mergeFields (p : Val → Bool) :
    ∀ (inc ex : Record) (k : String),
    alookup k (mergeFields p ex inc) = (kvals k inc).foldl (mOpt p) (alookup k ex) := by
  intro inc
  induction inc with
  | nil => intro ex k; rfl
  | cons kv rest ih =>
      intro ex k
      by_cases hk : kv.1 = k
      · subst hk
        rw [kvals_cons_eq kv.1 kv rest rfl, List.foldl_cons]
        cases hex : alookup kv.1 ex with
        | none =>
            rw [mergeFields_cons_none p ex kv rest hex, ih]
            rw [alookup_dictSet_eq]
            rfl
        | some w =>
            by_cases hw : p w = true
            · rw [mergeFields_cons_write p ex kv rest w hex hw, ih]
              rw [alookup_dictSet_eq]
              simp [mOpt, hw]
            · rw [mergeFields_cons_keep p ex kv rest w hex (bool_false_of_not_true hw), ih]
              rw [hex]
              simp [mOpt, bool_false_of_not_true hw]
      · rw [kvals_cons_ne k kv rest hk]
        have hne : k ≠ kv.1 := fun he => hk he.symm
        cases hex : alookup kv.1 ex with
        | none =>
            rw [mergeFields_cons_none p ex kv rest hex, ih]
            rw [alookup_dictSet_ne ex kv.2 hne]
        | some w =>
            by_cases hw : p w = true
            · rw [mergeFields_cons_write p ex kv rest w hex hw, ih]
              rw [alookup_dictSet_ne ex kv.2 hne]
            · rw [mergeFields_cons_keep p ex kv rest w hex (bool_false_of_not_true hw), ih]

theorem kvals_eq_nil_of_not_mem {k : String} {r : Record}
    (h : k ∉ r.map Prod.fst) : kvals k r = [] := by
  induction r with
  | nil => rfl
  | cons kv rest ih =>
      have hk : ¬kv.1 = k := by
        intro he; exact h (by simp [he])
      rw [kvals_cons_ne k kv rest hk]
      exact ih (fun hm => h (by simp [hm]))

theorem kvals_of_nodup {k : String} {r : Record} (h : (r.map Prod.fst).Nodup) :
    kvals k r =
      match alookup k r with
      | none => []
      | some v => [v] := by
  induction r with
  | nil => rfl
  | cons kv rest ih =>
      rw [List.map_cons] at h
      have h2 := List.nodup_cons.1 h
      by_cases hk : kv.1 = k
      · rw [kvals_cons_eq k kv rest hk]
        have hrest : alookup k rest = none := by
          rw [alookup_eq_none_iff]
          rw [← hk]
          exact h2.1
        rw [kvals_eq_nil_of_not_mem (by rw [← alookup_eq_none_iff]; exact hrest)]
        simp [alookup, hk]
      · rw [kvals_cons_ne k kv rest hk, ih h2.2]
        simp [alookup, hk]

theorem alookup_mergeFields_nodup (p : Val → Bool) (inc ex : Record) (k : String)
    (h : (inc.map Prod.fst).Nodup) :
    alookup k (mergeFields p ex inc) =
      match alookup k inc, alookup k ex with
      | none, w? => w?
      | some v, none => some v
      | some v, some w => if p w then some v else some w := by
  rw [alookup_mergeFields, kvals_of_nodup h]
  cases hi : alookup k inc with
  | none => rfl
  | some v =>
      cases he : alookup k ex with
      | none => rfl
      | some w => simp [mOpt]

theorem alookup_mergeFields_stable (p : Val → Bool) {ex : Record} {k : String}
    {w : Val} (inc : Record) (hw : alookup k ex = some w) (hp : p w = false) :
    alookup k (mergeFields p ex inc) = some w := by
  rw [alookup_mergeFields, hw]
  exact foldl_mOpt_stable p hp _

theorem mergeFields_eq_self (p : Val → Bool) :
    ∀ (inc ex : Record),
    (∀ kv ∈ inc, ∃ w, alookup kv.1 ex = some w ∧ (p w = true → w = kv.2)) →
    mergeFields p ex inc = ex := by
  intro inc
  induction inc with
  | nil => intro ex _; rfl
  | cons kv rest ih =>
      intro ex h
      obtain ⟨w, hw, hpw⟩ := h kv (List.mem_cons_self kv rest)
      by_cases hp : p w = true
      · rw [mergeFields_cons_write p ex kv rest w hw hp]
        rw [show dictSet ex kv.1 kv.2 = ex from by rw [← hpw hp]; exact dictSet_self hw]
        exact ih ex (fun kv' h' => h kv' (List.mem_cons_of_mem kv h'))
      · rw [mergeFields_cons_keep p ex kv rest w hw (bool_false_of_not_true hp)]
        exact ih ex (fun kv' h' => h kv' (List.mem_cons_of_mem kv h'))

theorem mergeFields_self (p : Val → Bool) (c : Record)
    (h : (c.map Prod.fst).Nodup) : mergeFields p c c = c := by
  apply mergeFields_eq_self
  intro kv hkv
  refine ⟨kv.2, ?_, fun _ => rfl⟩
  exact alookup_of_mem_nodup (by rw [Prod.mk.eta]; exact hkv) h

theorem mem_keys_mergeFields_left (p : Val → Bool) :
    ∀ (inc ex : Record) {k : String}, k ∈ ex.map Prod.fst →
    k ∈ (mergeFields p ex inc).map Prod.fst := by
  intro inc
  induction inc with
  | nil => intro ex k h; exact h
  | cons kv rest ih =>
      intro ex k h
      cases hex : alookup kv.1 ex with
      | none =>
          rw [mergeFields_cons_none p ex kv rest hex]
          exact ih _ (mem_keys_dictSet_mono kv.1 kv.2 h)
      | some w =>
          by_cases hw : p w = true
          · rw [mergeFields_cons_write p ex kv rest w hex hw]
            exact ih _ (mem_keys_dictSet_mono kv.1 kv.2 h)
          · rw [mergeFields_cons_keep p ex kv rest w hex (bool_false_of_not_true hw)]
            exact ih _ h

theorem mem_keys_mergeFields_right (p : Val → Bool) :
    ∀ (inc ex : Record) {k : String}, k ∈ inc.map Prod.fst →
    k ∈ (mergeFields p ex inc).map Prod.fst := by
  intro inc
  induction inc with
  | nil => intro ex k h; cases h
  | cons kv rest ih =>
      intro ex k h
      rw [List.map_cons] at h
      rcases List.mem_cons.1 h with h1 | h1
      · rw [h1]
        cases hex : alookup kv.1 ex with
        | none =>
            rw [mergeFields_cons_none p ex kv rest hex]
            exact mem_keys_mergeFields_left p rest _ (mem_keys_dictSet_self ex kv.1 kv.2)
        | some w =>
            by_cases hw : p w = true
            · rw [mergeFields_cons_write p ex kv rest w hex hw]
              exact mem_keys_mergeFields_left p rest _ (mem_keys_dictSet_self ex kv.1 kv.2)
            · rw [mergeFields_cons_keep p ex kv rest w hex (bool_false_of_not_true hw)]
              exact mem_keys_mergeFields_left p rest _ (mem_keys_of_alookup hex)
      · cases hex : alookup kv.1 ex with
        | none =>
            rw [mergeFields_cons_none p ex kv rest hex]
            exact ih _ h1
        | some w =>
            by_cases hw : p w = true
            · rw [mergeFields_cons_write p ex kv rest w hex hw]
              exact ih _ h1
            · rw [mergeFields_cons_keep p ex kv rest w hex (bool_false_of_not_true hw)]
              exact ih _ h1

theorem keys_mergeFields_of_sub (p : Val → Bool) :
    ∀ (inc ex : Record), (∀ k ∈ inc.map Prod.fst, k ∈ ex.map Prod.fst) →
    (mergeFields p ex inc).map Prod.fst = ex.map Prod.fst := by
  intro inc
  induction inc with
  | nil => intro ex _; rfl
  | cons kv rest ih =>
      intro ex h
      have hkv : kv.1 ∈ ex.map Prod.fst := h kv.1 (by simp)
      obtain ⟨w, hw⟩ := alookup_exists_of_mem_keys hkv
      have hkeys : (dictSet ex kv.1 kv.2).map Prod.fst = ex.map Prod.fst :=
        keys_dictSet_of_mem kv.2 hkv
      by_cases hp : p w = true
      · rw [mergeFields_cons_write p ex kv rest w hw hp]
        rw [ih (dictSet ex kv.1 kv.2) (fun k hk => by
          rw [hkeys]; exact h k (by simp [hk]))]
        exact hkeys
      · rw [mergeFields_cons_keep p ex kv rest w hw (bool_false_of_not_true hp)]
        exact ih ex (fun k hk => h k (by simp [hk]))

theorem nodup_keys_mergeFields (p : Val → Bool) :
    ∀ (inc ex : Record), (ex.map Prod.fst).Nodup →
    ((mergeFields p ex inc).map Prod.fst).Nodup := by
  intro inc
  induction inc with
  | nil => intro ex h; exact h
  | cons kv rest ih =>
      intro ex h
      cases hex : alookup kv.1 ex with
      | none =>
          rw [mergeFields_cons_none p ex kv rest hex]
          exact ih _ (nodup_keys_dictSet kv.1 kv.2 h)
      | some w =>
          by_cases hw : p w = true
          · rw [mergeFields_cons_write p ex kv rest w hex hw]
            exact ih _ (nodup_keys_dictSet kv.1 kv.2 h)
          · rw [mergeFields_cons_keep p ex kv rest w hex (bool_false_of_not_true hw)]
            exact ih _ h

/-! ## Merge-chain lemmas -/

theorem alookup_chain (p : Val → Bool) :
    ∀ (ts : List Record) (x : Record) (k : String),
    alookup k (ts.foldl (mergeFields p) x) =
      ((ts.map (kvals k)).flatten).foldl (mOpt p) (alookup k x) := by
  intro ts
  induction ts with
  | nil => intro x k; rfl
  | cons t ts' ih =>
      intro x k
      rw [List.foldl_cons, ih, alookup_mergeFields]
      rw [List.map_cons, List.flatten_cons, List.foldl_append]

theorem mem_keys_chain_mono (p : Val → Bool) :
    ∀ (ts : List Record) (x : Record) {k : String},
    k ∈ x.map Prod.fst → k ∈ (ts.foldl (mergeFields p) x).map Prod.fst := by
  intro ts
  induction ts with
  | nil => intro x k h; exact h
  | cons t ts' ih =>
      intro x k h
      rw [List.foldl_cons]
      exact ih _ (mem_keys_mergeFields_left p t x h)

theorem mem_keys_chain_member (p : Val → Bool) :
    ∀ (ts : List Record) (x : Record) {t : Record} {k : String},
    t ∈ ts → k ∈ t.map Prod.fst →
    k ∈ (ts.foldl (mergeFields p) x).map Prod.fst := by
  intro ts
  induction ts with
  | nil => intro x t k h; cases h
  | cons t' ts' ih =>
      intro x t k ht hk
      rw [List.foldl_cons]
      rcases List.mem_cons.1 ht with h1 | h1
      · exact mem_keys_chain_mono p ts' _ (mem_keys_mergeFields_right p t' x (h1 ▸ hk))
      · exact ih _ h1 hk

theorem keys_chain_of_sub (p : Val → Bool) :
    ∀ (ts : List Record) (x : Record),
    (∀ t ∈ ts, ∀ k ∈ t.map Prod.fst, k ∈ x.map Prod.fst) →
    (ts.foldl (mergeFields p) x).map Prod.fst = x.map Prod.fst := by
  intro ts
  induction ts with
  | nil => intro x _; rfl
  | cons t ts' ih =>
      intro x h
      rw [List.foldl_cons]
      have hkeys : (mergeFields p x t).map Prod.fst = x.map Prod.fst :=
        keys_mergeFields_of_sub p t x (h t (List.mem_cons_self t ts'))
      rw [ih (mergeFields p x t) (fun t' ht' k hk => by
        rw [hkeys]; exact h t' (List.mem_cons_of_mem t ht') k hk)]
      exact hkeys

theorem nodup_keys_chain (p : Val → Bool) :
    ∀ (ts : List Record) (x : Record), (x.map Prod.fst).Nodup →
    ((ts.foldl (mergeFields p) x).map Prod.fst).Nodup := by
  intro ts
  induction ts with
  | nil => intro x h; exact h
  | cons t ts' ih =>
      intro x h
      rw [List.foldl_cons]
      exact ih _ (nodup_keys_mergeFields p t x h)

theorem chain_idem (p : Val → Bool) (r1 : Record) (ts : List Record)
    (h1 : (r1.map Prod.fst).Nodup) :
    ts.foldl (mergeFields p) (ts.foldl (mergeFields p) r1) =
      ts.foldl (mergeFields p) r1 := by
  have hkeys : ∀ t ∈ ts, ∀ k ∈ t.map Prod.fst,
      k ∈ (ts.foldl (mergeFields p) r1).map Prod.fst :=
    fun t ht k hk => mem_keys_chain_member p ts r1 ht hk
  apply alist_ext
  · exact keys_chain_of_sub p ts _ hkeys
  · rw [keys_chain_of_sub p ts _ hkeys]
    exact nodup_keys_chain p ts r1 h1
  · intro k
    rw [alookup_chain, alookup_chain]
    exact foldl_mOpt_idem p _ _

/-! ## Identifier stability under merging -/

theorem extId_mergeFields (p : Val → Bool) {ex inc : Record}
    (hn : (inc.map Prod.fst).Nodup) (h : extId inc = extId ex) :
    extId (mergeFields p ex inc) = extId ex := by
  unfold extId at h ⊢
  rw [alookup_mergeFields_nodup p inc ex "id" hn]
  cases hi : alookup "id" inc with
  | none => rfl
  | some v =>
      cases he : alookup "id" ex with
      | none =>
          rw [hi, he] at h
          simp only [Option.getD] at h
          simp [h]
      | some w =>
          rw [hi, he] at h
          simp only [Option.getD] at h
          by_cases hp : p w = true
          · simp [hp, h]
          · simp [bool_false_of_not_true hp]

theorem extId_chain (p : Val → Bool) {X : Val} :
    ∀ (ts : List Record) (x : Record), extId x = X →
    (∀ t ∈ ts, extId t = X ∧ (t.map Prod.fst).Nodup) →
    extId (ts.foldl (mergeFields p) x) = X := by
  intro ts
  induction ts with
  | nil => intro x hx _; exact hx
  | cons t ts' ih =>
      intro x hx h
      rw [List.foldl_cons]
      apply ih
      · have ht := h t (List.mem_cons_self t ts')
        rw [extId_mergeFields p ht.2 (ht.1.trans hx.symm)]
        exact hx
      · exact fun t' ht' => h t' (List.mem_cons_of_mem t ht')

/-! ## Indexed-store lemmas -/

theorem getD_set_self {α : Type} :
    ∀ (l : List α) (i : Nat) (v d : α), i < l.length →
    (l.set i v).getD i d = v := by
  intro l
  induction l with
  | nil => intro i v d h; cases h
  | cons a rest ih =>
      intro i v d h
      cases i with
      | zero => rfl
      | succ n => exact ih n v d (Nat.lt_of_succ_lt_succ h)

theorem getD_set_ne {α : Type} :
    ∀ (l : List α) (i j : Nat) (v d : α), j ≠ i →
    (l.set i v).getD j d = l.getD j d := by
  intro l
  induction l with
  | nil => intro i j v d _; rfl
  | cons a rest ih =>
      intro i j v d h
      cases i with
      | zero =>
          cases j with
          | zero => exact absurd rfl h
          | succ m => rfl
      | succ n =>
          cases j with
          | zero => rfl
          | succ m => exact ih n m v d (fun he => h (by rw [he]))

theorem ext_getD {α : Type} (d : α) :
    ∀ (l1 l2 : List α), l1.length = l2.length →
    (∀ i, i < l1.length → l1.getD i d = l2.getD i d) → l1 = l2 := by
  intro l1
  induction l1 with
  | nil =>
      intro l2 hlen _
      cases l2 with
      | nil => rfl
      | cons b r2 => simp at hlen
  | cons a r1 ih =>
      intro l2 hlen h
      cases l2 with
      | nil => simp at hlen
      | cons b r2 =>
          have h0 : a = b := h 0 (by simp)
          have htl : r1 = r2 := by
            apply ih r2 (by simpa using hlen)
            intro i hi
            exact h (i + 1) (by simpa using Nat.succ_lt_succ hi)
          rw [h0, htl]

/-! ## Consolidation-step lemmas -/

theorem mem_inputsOf {store0 : List Record} {X : Val} {l : List (String × Nat)}
    {a : String × Nat} :
    a ∈ inputsOf store0 X l ↔ a ∈ l ∧ origId store0 a.2 = X := by
  simp [inputsOf, List.mem_filter]

theorem inputsOf_append_singleton (store0 : List Record) (X : Val)
    (l : List (String × Nat)) (a : String × Nat) :
    inputsOf store0 X (l ++ [a]) =
      inputsOf store0 X l ++ (if origId store0 a.2 = X then [a] else []) := by
  by_cases h : origId store0 a.2 = X <;>
    simp [inputsOf, List.filter_append, h]

theorem inputsOf_append (store0 : List Record) (X : Val)
    (l m : List (String × Nat)) :
    inputsOf store0 X (l ++ m) = inputsOf store0 X l ++ inputsOf store0 X m := by
  simp [inputsOf, List.filter_append]

theorem inputsOf_cons_self (store0 : List Record) (a : String × Nat)
    (m : List (String × Nat)) :
    inputsOf store0 (origId store0 a.2) (a :: m) =
      a :: inputsOf store0 (origId store0 a.2) m := by
  simp [inputsOf, List.filter_cons]

theorem inputsOf_cons_ne (store0 : List Record) {X : Val} (a : String × Nat)
    (m : List (String × Nat)) (h : origId store0 a.2 ≠ X) :
    inputsOf store0 X (a :: m) = inputsOf store0 X m := by
  simp [inputsOf, List.filter_cons, h]

theorem getD_mem_of_lt {α : Type} :
    ∀ (l : List α) (i : Nat) (d : α), i < l.length → l.getD i d ∈ l := by
  intro l
  induction l with
  | nil => intro i d h; cases h
  | cons a rest ih =>
      intro i d h
      cases i with
      | zero => exact List.mem_cons_self a rest
      | succ n => exact List.mem_cons_of_mem a (ih n d (Nat.lt_of_succ_lt_succ h))

theorem getD_eq_default_of_le {α : Type} :
    ∀ (l : List α) (i : Nat) (d : α), l.length ≤ i → l.getD i d = d := by
  intro l
  induction l with
  | nil => intro i d _; cases i <;> rfl
  | cons a rest ih =>
      intro i d h
      cases i with
      | zero => cases h
      | succ n => exact ih n d (Nat.le_of_succ_le_succ h)

theorem store0_getD_nodup {store0 : List Record}
    (hrec : ∀ r ∈ store0, (r.map Prod.fst).Nodup) (i : Nat) :
    (((store0.getD i []).map Prod.fst) : List String).Nodup := by
  by_cases h : i < store0.length
  · exact hrec _ (getD_mem_of_lt store0 i [] h)
  · rw [getD_eq_default_of_le store0 i [] (Nat.le_of_not_lt h)]
    exact List.nodup_nil

theorem consStep_new (p : Val → Bool) (nm : Option (String → String))
    (s : ConsState) (rk : String) (idx : Nat)
    (h : alookup (extId (s.store.getD idx [])) s.unique = none) :
    consStep p nm s rk idx =
      { s with unique := s.unique ++ [(extId (s.store.getD idx []),
          { recIdx := idx, regions := [rk], primary_region := rk,
            region_names := match nm with | none => [] | some f => [f rk] })] } := by
  simp only [consStep]
  rw [h]

theorem consStep_merge (p : Val → Bool) (nm : Option (String → String))
    (s : ConsState) (rk : String) (idx : Nat) (e : CanonEntry)
    (h : alookup (extId (s.store.getD idx [])) s.unique = some e) :
    consStep p nm s rk idx =
      { store := s.store.set e.recIdx
          (mergeFields p (s.store.getD e.recIdx []) (s.store.getD idx [])),
        unique := updEntry (extId (s.store.getD idx []))
          (mergedEntry nm rk e) s.unique } := by
  simp only [consStep]
  rw [h]

theorem mergedEntry_recIdx (nm : Option (String → String)) (rk : String)
    (e : CanonEntry) : (mergedEntry nm rk e).recIdx = e.recIdx := rfl

theorem mergedEntry_primary (nm : Option (String → String)) (rk : String)
    (e : CanonEntry) : (mergedEntry nm rk e).primary_region = e.primary_region := rfl

theorem mergedEntry_regions (nm : Option (String → String)) (rk : String)
    (e : CanonEntry) : (mergedEntry nm rk e).regions =
      if rk ∈ e.regions then e.regions else e.regions ++ [rk] := rfl

theorem mergedEntry_names_none (rk : String) (e : CanonEntry) :
    (mergedEntry none rk e).region_names = e.region_names := rfl

theorem mergedEntry_names_some (f : String → String) (rk : String)
    (e : CanonEntry) : (mergedEntry (some f) rk e).region_names =
      if f rk ∈ e.region_names then e.region_names
      else e.region_names ++ [f rk] := rfl

theorem canonEntry_ext {e1 e2 : CanonEntry} (h1 : e1.recIdx = e2.recIdx)
    (h2 : e1.regions = e2.regions) (h3 : e1.primary_region = e2.primary_region)
    (h4 : e1.region_names = e2.region_names) : e1 = e2 := by
  obtain ⟨a1, a2, a3, a4⟩ := e1
  obtain ⟨b1, b2, b3, b4⟩ := e2
  simp only at h1 h2 h3 h4
  rw [h1, h2, h3, h4]

theorem mergedEntry_eq_self (nm : Option (String → String)) (rk : String)
    (e : CanonEntry) (h1 : rk ∈ e.regions)
    (h2 : ∀ f, nm = some f → f rk ∈ e.region_names) :
    mergedEntry nm rk e = e := by
  apply canonEntry_ext
  · exact mergedEntry_recIdx nm rk e
  · rw [mergedEntry_regions, if_pos h1]
  · exact mergedEntry_primary nm rk e
  · cases nm with
    | none => exact mergedEntry_names_none rk e
    | some f => rw [mergedEntry_names_some, if_pos (h2 f rfl)]

theorem consolidate_nil (p : Val → Bool) (nm : Option (String → String))
    (s : ConsState) : consolidate p nm s [] = s := rfl

theorem consolidate_cons (p : Val → Bool) (nm : Option (String → String))
    (s : ConsState) (a : String × Nat) (rest : List (String × Nat)) :
    consolidate p nm s (a :: rest) =
      consolidate p nm (consStep p nm s a.1 a.2) rest := rfl

/-! ## The consolidation invariant -/

theorem forall_entry_updEntry {α β : Type} [DecidableEq α] {l : List (α × β)}
    {k : α} {v : β} {P : β → Prop} (hk : k ∈ l.map Prod.fst)
    (h : ∀ x e', alookup x (updEntry k v l) = some e' → P e') : P v :=
  h k v (alookup_updEntry_eq v hk)

theorem consInv_init (p : Val → Bool) (nm : Option (String → String))
    (store0 : List Record) : ConsInv p nm store0 [] ⟨store0, []⟩ := by
  refine ⟨rfl, rfl, ?_, ?_, ?_⟩
  · intro X e he; cases he
  · intro i _; rfl
  · intro X e he; cases he

theorem consInv_step (p : Val → Bool) (nm : Option (String → String))
    (store0 : List Record) (pr : List (String × Nat)) (s : ConsState)
    (hrec : ∀ r ∈ store0, (r.map Prod.fst).Nodup)
    (inv : ConsInv p nm store0 pr s)
    (a : String × Nat)
    (hfresh : a.2 ∉ pr.map Prod.snd)
    (hbound : a.2 < store0.length) :
    ConsInv p nm store0 (pr ++ [a]) (consStep p nm s a.1 a.2) := by
  have hnotcanon : ∀ X e, alookup X s.unique = some e → e.recIdx ≠ a.2 := by
    intro X e he hc
    obtain ⟨b, rest, hbr, hrecidx, -, -, -, -⟩ := inv.entry X e he
    have hbpr : b ∈ pr :=
      (mem_inputsOf.1 (by rw [hbr]; exact List.mem_cons_self b rest)).1
    have hba : b.2 = a.2 := by rw [← hrecidx, hc]
    exact hfresh (hba ▸ List.mem_map.2 ⟨b, hbpr, rfl⟩)
  have hcur : s.store.getD a.2 [] = store0.getD a.2 [] := inv.untouched a.2 hnotcanon
  have hid : extId (s.store.getD a.2 []) = origId store0 a.2 := by
    rw [hcur]; rfl
  have hids_append : (pr ++ [a]).map (fun b => origId store0 b.2) =
      pr.map (fun b => origId store0 b.2) ++ [origId store0 a.2] := by
    simp
  cases hl : alookup (origId store0 a.2) s.unique with
  | none =>
      have hnew := consStep_new p nm s a.1 a.2 (by rw [hid]; exact hl)
      have hXnotin : origId store0 a.2 ∉ s.unique.map Prod.fst :=
        (alookup_eq_none_iff _ _).1 hl
      have hinputs_nil : inputsOf store0 (origId store0 a.2) pr = [] := by
        cases hi : inputsOf store0 (origId store0 a.2) pr with
        | nil => rfl
        | cons b restb =>
            exfalso
            have hb := mem_inputsOf.1 (by rw [hi]; exact List.mem_cons_self b restb)
            have hXin : origId store0 a.2 ∈ pr.map (fun b => origId store0 b.2) :=
              List.mem_map.2 ⟨b, hb.1, hb.2⟩
            rw [inv.keysEq] at hXnotin
            exact hXnotin ((mem_dedupR _ _).2 hXin)
      rw [hnew]
      refine ⟨inv.lenEq, ?_, ?_, ?_, ?_⟩
      · -- keysEq
        rw [List.map_append, inv.keysEq, hids_append, dedupR_append_singleton]
        rw [if_neg (by rw [inv.keysEq] at hXnotin; exact hXnotin)]
        simp only [List.map_cons, List.map_nil, hid]
      · -- entry
        intro Y e' he'
        rw [alookup_append] at he'
        cases hY : alookup Y s.unique with
        | some e'' =>
            rw [hY] at he'
            have hee : e'' = e' := by
              simp only at he'
              exact Option.some.inj he'
            subst hee
            obtain ⟨b, restb, hbr, h1, h2, h3, h4, h5⟩ := inv.entry Y e'' hY
            have hYX : origId store0 a.2 ≠ Y := by
              intro hyx
              rw [hyx] at hl
              rw [hl] at hY
              exact Option.noConfusion hY
            have hio : inputsOf store0 Y (pr ++ [a]) = inputsOf store0 Y pr := by
              rw [inputsOf_append_singleton, if_neg hYX, List.append_nil]
            exact ⟨b, restb, by rw [hio]; exact hbr, h1, h2, by rw [hio]; exact h3,
              by rw [hio]; exact h4, h5⟩
        | none =>
            rw [hY] at he'
            simp only [alookup] at he'
            by_cases hYX : origId store0 a.2 = Y
            · rw [if_pos (by rw [hid, hYX])] at he'
              have he'' := (Option.some.inj he').symm
              subst hYX
              have hio : inputsOf store0 (origId store0 a.2) (pr ++ [a]) = [a] := by
                rw [inputsOf_append_singleton, if_pos rfl, hinputs_nil]
                rfl
              refine ⟨a, [], hio, ?_, ?_, ?_, ?_, ?_⟩
              · rw [he'']
              · rw [he'']
              · rw [he'', hio]; simp [dedupR]
              · rw [he'', hio]
                cases nm with
                | none => rfl
                | some f => simp [dedupR]
              · rw [he'']
                simp only [List.map_nil, List.foldl_nil]
                exact hcur
            · rw [if_neg (by rw [hid]; exact hYX)] at he'
              exact Option.noConfusion he'
      · -- untouched
        intro i hi
        apply inv.untouched
        intro Y e'' hY
        apply hi Y e''
        rw [alookup_append, hY]
      · -- recBound
        intro Y e' he'
        rw [alookup_append] at he'
        cases hY : alookup Y s.unique with
        | some e'' =>
            rw [hY] at he'
            simp only at he'
            rw [← Option.some.inj he']
            exact inv.recBound Y e'' hY
        | none =>
            rw [hY] at he'
            simp only [alookup] at he'
            by_cases hYX : extId (s.store.getD a.2 []) = Y
            · rw [if_pos hYX] at he'
              rw [← Option.some.inj he']
              exact hbound
            · rw [if_neg hYX] at he'
              exact Option.noConfusion he'
  | some e =>
      have hmerge := consStep_merge p nm s a.1 a.2 e (by rw [hid]; exact hl)
      obtain ⟨b, restb, hbr, hrecidx, hprim, hregions, hnames, hstore⟩ :=
        inv.entry (origId store0 a.2) e hl
      have hane : a.2 ≠ e.recIdx := fun hc => hnotcanon _ e hl hc.symm
      have hXin : origId store0 a.2 ∈ s.unique.map Prod.fst := mem_keys_of_alookup hl
      have hio : inputsOf store0 (origId store0 a.2) (pr ++ [a]) =
          (b :: restb) ++ [a] := by
        rw [inputsOf_append_singleton, if_pos rfl, hbr]
      rw [hmerge]
      refine ⟨?_, ?_, ?_, ?_, ?_⟩
      · -- lenEq
        rw [List.length_set]; exact inv.lenEq
      · -- keysEq
        rw [keys_updEntry, inv.keysEq, hids_append, dedupR_append_singleton]
        rw [if_pos (by rw [← inv.keysEq]; exact hXin)]
      · -- entry
        intro Y e' he'
        by_cases hYX : Y = origId store0 a.2
        · subst hYX
          rw [hid] at he'
          rw [alookup_updEntry_eq _ hXin] at he'
          have hee := (Option.some.inj he').symm
          refine ⟨b, restb ++ [a], by rw [hio, List.cons_append], ?_, ?_, ?_, ?_, ?_⟩
          · rw [hee, mergedEntry_recIdx]; exact hrecidx
          · rw [hee, mergedEntry_primary]; exact hprim
          · rw [hee, mergedEntry_regions, hio]
            have hmap : ((b :: restb) ++ [a]).map Prod.fst =
                ((b :: restb).map Prod.fst) ++ [a.1] := by simp
            rw [hmap, dedupR_append_singleton, ← hbr, ← hregions]
          · rw [hee, hio]
            cases nm with
            | none => exact hnames
            | some f =>
                have hnamesf : e.region_names =
                    dedupR (((inputsOf store0 (origId store0 a.2) pr).map
                      Prod.fst).map f) := hnames
                show (if f a.1 ∈ e.region_names then e.region_names
                    else e.region_names ++ [f a.1]) =
                  dedupR ((((b :: restb) ++ [a]).map Prod.fst).map f)
                have hmap : (((b :: restb) ++ [a]).map Prod.fst).map f =
                    (((b :: restb).map Prod.fst).map f) ++ [f a.1] := by simp
                rw [hmap, dedupR_append_singleton, ← hbr, ← hnamesf]
          · rw [hee, mergedEntry_recIdx]
            have hlt : e.recIdx < s.store.length := by
              rw [inv.lenEq]; exact inv.recBound _ e hl
            rw [getD_set_self _ _ _ _ hlt]
            rw [hstore, hcur]
            simp [List.foldl_append]
        · rw [hid, alookup_updEntry_ne _ _ hYX] at he'
          obtain ⟨bY, restY, hbrY, h1, h2, h3, h4, h5⟩ := inv.entry Y e' he'
          have hioY : inputsOf store0 Y (pr ++ [a]) = inputsOf store0 Y pr := by
            rw [inputsOf_append_singleton, if_neg (fun hc => hYX hc.symm),
              List.append_nil]
          have hYb : origId store0 bY.2 = Y :=
            (mem_inputsOf.1 (by rw [hbrY]; exact List.mem_cons_self bY restY)).2
          have hXb : origId store0 b.2 = origId store0 a.2 :=
            (mem_inputsOf.1 (by rw [hbr]; exact List.mem_cons_self b restb)).2
          have hrecne : e'.recIdx ≠ e.recIdx := by
            intro hc
            rw [h1, hrecidx] at hc
            rw [hc] at hYb
            exact hYX (hYb.symm.trans hXb)
          refine ⟨bY, restY, by rw [hioY]; exact hbrY, h1, h2,
            by rw [hioY]; exact h3, by rw [hioY]; exact h4, ?_⟩
          rw [getD_set_ne _ _ _ _ _ hrecne]
          exact h5
      · -- untouched
        intro i hi
        have hXin' : extId (s.store.getD a.2 []) ∈ s.unique.map Prod.fst := by
          rw [hid]; exact hXin
        have hie : e.recIdx ≠ i :=
          forall_entry_updEntry (P := fun e' => e'.recIdx ≠ i) hXin'
            (fun x e' hx => hi x e' hx)
        rw [getD_set_ne _ _ _ _ _ (fun hc => hie hc.symm)]
        apply inv.untouched
        intro Y e'' hY
        by_cases hYX : Y = origId store0 a.2
        · subst hYX
          rw [hl] at hY
          rw [← Option.some.inj hY]
          exact hie
        · apply hi Y e''
          rw [hid, alookup_updEntry_ne _ _ hYX]
          exact hY
      · -- recBound
        intro Y e' he'
        by_cases hYX : Y = origId store0 a.2
        · subst hYX
          rw [hid, alookup_updEntry_eq _ hXin] at he'
          rw [← Option.some.inj he']
          exact inv.recBound _ e hl
        · rw [hid, alookup_updEntry_ne _ _ hYX] at he'
          exact inv.recBound Y e' he'

theorem consInv_run (p : Val → Bool) (nm : Option (String → String))
    (store0 : List Record) (ins : List (String × Nat))
    (hrec : ∀ r ∈ store0, (r.map Prod.fst).Nodup)
    (hnodup : (ins.map Prod.snd).Nodup)
    (hbound : ∀ a ∈ ins, a.2 < store0.length) :
    ConsInv p nm store0 ins (consolidate p nm ⟨store0, []⟩ ins) := by
  suffices h : ∀ (rest pr : List (String × Nat)) (s : ConsState),
      pr ++ rest = ins → ConsInv p nm store0 pr s →
      ConsInv p nm store0 (pr ++ rest) (consolidate p nm s rest) by
    have h2 := h ins [] ⟨store0, []⟩ rfl (consInv_init p nm store0)
    simpa using h2
  intro rest
  induction rest with
  | nil =>
      intro pr s hpr inv
      rw [consolidate_nil, List.append_nil]
      exact inv
  | cons a rest' ih =>
      intro pr s hpr inv
      have hfresh : a.2 ∉ pr.map Prod.snd := by
        intro hmem
        have h1 : ins.map Prod.snd = pr.map Prod.snd ++ a.2 :: rest'.map Prod.snd := by
          rw [← hpr]; simp
        rw [h1] at hnodup
        rcases List.nodup_append.1 hnodup with ⟨-, -, hdisj⟩
        exact hdisj hmem (List.mem_cons_self _ _)
      have hb : a.2 < store0.length :=
        hbound a (by rw [← hpr]; exact List.mem_append.2 (Or.inr (List.mem_cons_self a rest')))
      have hstep := consInv_step p nm store0 pr s hrec inv a hfresh hb
      have h3 := ih (pr ++ [a]) (consStep p nm s a.1 a.2)
        (by rw [← hpr]; simp) hstep
      rw [consolidate_cons]
      rw [show pr ++ a :: rest' = (pr ++ [a]) ++ rest' from by simp]
      exact h3

theorem inputSeq_snd (rd : List (String × List Record)) :
    (inputSeq rd).map Prod.snd = List.range (flattenRegions rd).length := by
  rw [inputSeq, List.map_map]
  have h : (Prod.snd ∘ fun i => (((flattenRegions rd).getD i ("", [])).1, i)) =
      fun i => i := rfl
  rw [h, List.map_id']

theorem initialStore_length (rd : List (String × List Record)) :
    (initialStore rd).length = (flattenRegions rd).length := by
  rw [initialStore, List.length_map]

theorem consInv_runConsolidation (p : Val → Bool) (nm : Option (String → String))
    (rd : List (String × List Record)) (hrec : recordsNodup rd) :
    ConsInv p nm (initialStore rd) (inputSeq rd) (runConsolidation p nm rd) := by
  apply consInv_run
  · exact hrec
  · rw [inputSeq_snd]; exact List.nodup_range _
  · intro a ha
    obtain ⟨i, hi, hia⟩ := List.mem_map.1 ha
    rw [← hia]
    rw [initialStore_length]
    exact List.mem_range.1 hi

/-! ## Consequences of the consolidation invariant -/

theorem consInv_canon_facts (p : Val → Bool) (nm : Option (String → String))
    (store0 : List Record) (pr : List (String × Nat)) (s : ConsState)
    (hrec : ∀ r ∈ store0, (r.map Prod.fst).Nodup)
    (inv : ConsInv p nm store0 pr s) :
    ∀ X e, alookup X s.unique = some e →
      extId (s.store.getD e.recIdx []) = X ∧
      ((s.store.getD e.recIdx []).map Prod.fst).Nodup ∧
      origId store0 e.recIdx = X := by
  intro X e he
  obtain ⟨b, restb, hbr, hrecidx, -, -, -, hstore⟩ := inv.entry X e he
  have hbX : origId store0 b.2 = X :=
    (mem_inputsOf.1 (by rw [hbr]; exact List.mem_cons_self b restb)).2
  have htail : ∀ t ∈ restb.map (fun b => store0.getD b.2 []),
      extId t = X ∧ (t.map Prod.fst).Nodup := by
    intro t ht
    obtain ⟨b', hb', hbt⟩ := List.mem_map.1 ht
    have hb'X : origId store0 b'.2 = X :=
      (mem_inputsOf.1 (by rw [hbr]; exact List.mem_cons_of_mem b hb')).2
    exact ⟨by rw [← hbt]; exact hb'X, by rw [← hbt]; exact store0_getD_nodup hrec b'.2⟩
  refine ⟨?_, ?_, ?_⟩
  · rw [hstore]
    exact extId_chain p _ _ hbX htail
  · rw [hstore]
    exact nodup_keys_chain p _ _ (store0_getD_nodup hrec b.2)
  · rw [hrecidx]; exact hbX

theorem alookup_functional {α β : Type} [DecidableEq α] {l : List (α × β)} {k : α}
    {v w : β} (h1 : alookup k l = some v) (h2 : alookup k l = some w) : v = w := by
  rw [h1] at h2
  exact Option.some.inj h2

/-! ## The second pass -/

theorem pass2_init (p : Val → Bool) (store0 : List Record) (s1 : ConsState) :
    Pass2Inv p store0 s1 [] s1 := by
  refine ⟨rfl, rfl, fun i _ => rfl, ?_⟩
  intro X e _
  simp [inputsOf]

theorem pass2_step (p : Val → Bool) (nm : Option (String → String))
    (store0 : List Record) (ins : List (String × Nat)) (s1 : ConsState)
    (hrec : ∀ r ∈ store0, (r.map Prod.fst).Nodup)
    (hnodupidx : (ins.map Prod.snd).Nodup)
    (inv1 : ConsInv p nm store0 ins s1)
    (pr rest : List (String × Nat)) (a : String × Nat)
    (hins : ins = pr ++ a :: rest)
    (t : ConsState) (inv2 : Pass2Inv p store0 s1 pr t) :
    Pass2Inv p store0 s1 (pr ++ [a]) (consStep p nm t a.1 a.2) := by
  have hamem : a ∈ ins := by
    rw [hins]; exact List.mem_append.2 (Or.inr (List.mem_cons_self a rest))
  have hafresh : a.2 ∉ pr.map Prod.snd := by
    intro hmem
    have h1 : ins.map Prod.snd = pr.map Prod.snd ++ a.2 :: rest.map Prod.snd := by
      rw [hins]; simp
    rw [h1] at hnodupidx
    rcases List.nodup_append.1 hnodupidx with ⟨-, -, hdisj⟩
    exact hdisj hmem (List.mem_cons_self _ _)
  have hXkey : origId store0 a.2 ∈ s1.unique.map Prod.fst := by
    rw [inv1.keysEq]
    exact (mem_dedupR _ _).2 (List.mem_map.2 ⟨a, hamem, rfl⟩)
  obtain ⟨e, he⟩ := alookup_exists_of_mem_keys hXkey
  obtain ⟨b, restX, hbrX, hrecidx, hprim, hregions, hnames, hstore⟩ :=
    inv1.entry (origId store0 a.2) e he
  obtain ⟨hcid, hcnodup, hcorig⟩ :=
    consInv_canon_facts p nm store0 ins s1 hrec inv1 (origId store0 a.2) e he
  -- the record at any non-canonical index is still the original raw record
  have huntouched : ∀ i, (∀ Y eY, alookup Y s1.unique = some eY → eY.recIdx ≠ i) →
      t.store.getD i [] = store0.getD i [] := by
    intro i hi
    rw [inv2.untouched i hi]
    exact inv1.untouched i hi
  -- identifier and key facts for the canonical record as pass 2 rewrites it
  have hcanonfacts : ∀ Y eY, alookup Y s1.unique = some eY →
      extId (t.store.getD eY.recIdx []) = Y ∧
      ((t.store.getD eY.recIdx []).map Prod.fst).Nodup := by
    intro Y eY heY
    obtain ⟨hid1, hnd1, -⟩ :=
      consInv_canon_facts p nm store0 ins s1 hrec inv1 Y eY heY
    rw [inv2.canon Y eY heY]
    constructor
    · apply extId_chain p _ _ hid1
      intro t' ht'
      obtain ⟨b', hb', hbt⟩ := List.mem_map.1 ht'
      have hb'in : b' ∈ inputsOf store0 Y pr :=
        List.mem_of_mem_drop hb'
      have hb'Y : origId store0 b'.2 = Y := (mem_inputsOf.1 hb'in).2
      exact ⟨by rw [← hbt]; exact hb'Y, by rw [← hbt]; exact store0_getD_nodup hrec b'.2⟩
    · exact nodup_keys_chain p _ _ hnd1
  -- the decomposition of the X-inputs of the full run
  have hins_decomp : inputsOf store0 (origId store0 a.2) ins =
      inputsOf store0 (origId store0 a.2) pr ++
        a :: inputsOf store0 (origId store0 a.2) rest := by
    rw [hins, inputsOf_append]
    congr 1
    exact inputsOf_cons_self store0 a rest
  by_cases hfirst : inputsOf store0 (origId store0 a.2) pr = []
  · -- a is the first record carrying this identifier: the canonical record
    -- is the record at a.2 itself, and merging it into itself is a no-op
    have hba : b = a ∧ restX = inputsOf store0 (origId store0 a.2) rest := by
      rw [hins_decomp, hfirst, List.nil_append] at hbrX
      exact ⟨(List.cons.injEq _ _ _ _ ▸ hbrX).1.symm,
        ((List.cons.injEq _ _ _ _ ▸ hbrX).2).symm⟩
    have hrecA : e.recIdx = a.2 := by rw [hrecidx, hba.1]
    have hcanonval : t.store.getD e.recIdx [] = s1.store.getD e.recIdx [] := by
      rw [inv2.canon _ e he, hfirst]
      rfl
    have hlid : extId (t.store.getD a.2 []) = origId store0 a.2 := by
      have h1 := (hcanonfacts _ e he).1
      rw [hrecA] at h1
      exact h1
    have hlook : alookup (extId (t.store.getD a.2 [])) t.unique = some e := by
      rw [hlid, inv2.uniqueEq]
      exact he
    rw [consStep_merge p nm t a.1 a.2 e hlook]
    -- the updated entry is unchanged
    have hregmem : a.1 ∈ e.regions := by
      rw [hregions]
      exact (mem_dedupR _ _).2 (List.mem_map.2 ⟨a,
        (mem_inputsOf.2 ⟨hamem, rfl⟩), rfl⟩)
    have hentry : mergedEntry nm a.1 e = e := by
      apply mergedEntry_eq_self nm a.1 e hregmem
      intro f hf
      have hnamesf : e.region_names =
          dedupR (((inputsOf store0 (origId store0 a.2) ins).map
            Prod.fst).map f) := by rw [hnames, hf]
      rw [hnamesf]
      exact (mem_dedupR _ _).2 (List.mem_map.2 ⟨a.1,
        List.mem_map.2 ⟨a, mem_inputsOf.2 ⟨hamem, rfl⟩, rfl⟩, rfl⟩)
    rw [hentry, hlid]
    have hupd : updEntry (origId store0 a.2) e t.unique = t.unique :=
      updEntry_self (by rw [inv2.uniqueEq]; exact he)
    have hmerged : mergeFields p (t.store.getD e.recIdx []) (t.store.getD a.2 []) =
        s1.store.getD e.recIdx [] := by
      rw [← hrecA, hcanonval]
      exact mergeFields_self p _ (by
        have h2 := (hcanonfacts _ e he).2
        rw [hcanonval] at h2
        exact h2)
    refine ⟨?_, ?_, ?_, ?_⟩
    · simp only [hupd]
      exact inv2.uniqueEq
    · rw [List.length_set]; exact inv2.lenEq
    · intro i hi
      have hie : e.recIdx ≠ i := hi _ e he
      simp only
      rw [getD_set_ne _ _ _ _ _ (fun hc => hie hc.symm)]
      exact inv2.untouched i hi
    · intro Y eY heY
      by_cases hYX : Y = origId store0 a.2
      · subst hYX
        have heq : eY = e := alookup_functional heY he
        subst heq
        simp only
        have hlt : eY.recIdx < t.store.length := by
          rw [inv2.lenEq, inv1.lenEq]
          exact inv1.recBound _ eY he
        rw [hmerged, getD_set_self _ _ _ _ hlt]
        rw [inputsOf_append_singleton, if_pos rfl, hfirst, List.nil_append]
        rfl
      · have hYrec : eY.recIdx ≠ e.recIdx := by
          intro hc
          obtain ⟨-, -, hYorig⟩ :=
            consInv_canon_facts p nm store0 ins s1 hrec inv1 Y eY heY
          rw [hc, hcorig] at hYorig
          exact hYX hYorig.symm
        simp only
        rw [getD_set_ne _ _ _ _ _ hYrec]
        rw [inputsOf_append_singleton, if_neg (fun hc => hYX hc.symm),
          List.append_nil]
        exact inv2.canon Y eY heY
  · -- a merges into an earlier canonical record
    obtain ⟨bp, restp, hbp⟩ : ∃ bp restp,
        inputsOf store0 (origId store0 a.2) pr = bp :: restp := by
      cases hc : inputsOf store0 (origId store0 a.2) pr with
      | nil => exact absurd hc hfirst
      | cons x y => exact ⟨x, y, rfl⟩
    have hbbp : b = bp := by
      rw [hins_decomp, hbp] at hbrX
      exact (List.cons.injEq _ _ _ _ ▸ hbrX).1.symm
    have hanotcanon : ∀ Y eY, alookup Y s1.unique = some eY → eY.recIdx ≠ a.2 := by
      intro Y eY heY hc
      obtain ⟨-, -, hYorig⟩ :=
        consInv_canon_facts p nm store0 ins s1 hrec inv1 Y eY heY
      rw [hc] at hYorig
      have hYX : Y = origId store0 a.2 := hYorig.symm
      subst hYX
      have heq : eY = e := alookup_functional heY he
      subst heq
      have hbppr : bp ∈ pr :=
        (mem_inputsOf.1 (by rw [hbp]; exact List.mem_cons_self bp restp)).1
      have : bp.2 = a.2 := by rw [← hbbp, ← hrecidx]; exact hc
      exact hafresh (this ▸ List.mem_map.2 ⟨bp, hbppr, rfl⟩)
    have hincoming : t.store.getD a.2 [] = store0.getD a.2 [] :=
      huntouched a.2 hanotcanon
    have hlid : extId (t.store.getD a.2 []) = origId store0 a.2 := by
      rw [hincoming]; rfl
    have hlook : alookup (extId (t.store.getD a.2 [])) t.unique = some e := by
      rw [hlid, inv2.uniqueEq]
      exact he
    rw [consStep_merge p nm t a.1 a.2 e hlook]
    have hregmem : a.1 ∈ e.regions := by
      rw [hregions]
      exact (mem_dedupR _ _).2 (List.mem_map.2 ⟨a,
        (mem_inputsOf.2 ⟨hamem, rfl⟩), rfl⟩)
    have hentry : mergedEntry nm a.1 e = e := by
      apply mergedEntry_eq_self nm a.1 e hregmem
      intro f hf
      have hnamesf : e.region_names =
          dedupR (((inputsOf store0 (origId store0 a.2) ins).map
            Prod.fst).map f) := by rw [hnames, hf]
      rw [hnamesf]
      exact (mem_dedupR _ _).2 (List.mem_map.2 ⟨a.1,
        List.mem_map.2 ⟨a, mem_inputsOf.2 ⟨hamem, rfl⟩, rfl⟩, rfl⟩)
    rw [hentry, hlid]
    have hupd : updEntry (origId store0 a.2) e t.unique = t.unique :=
      updEntry_self (by rw [inv2.uniqueEq]; exact he)
    refine ⟨?_, ?_, ?_, ?_⟩
    · simp only [hupd]
      exact inv2.uniqueEq
    · rw [List.length_set]; exact inv2.lenEq
    · intro i hi
      have hie : e.recIdx ≠ i := hi _ e he
      simp only
      rw [getD_set_ne _ _ _ _ _ (fun hc => hie hc.symm)]
      exact inv2.untouched i hi
    · intro Y eY heY
      by_cases hYX : Y = origId store0 a.2
      · subst hYX
        have heq : eY = e := alookup_functional heY he
        subst heq
        simp only
        have hlt : eY.recIdx < t.store.length := by
          rw [inv2.lenEq, inv1.lenEq]
          exact inv1.recBound _ eY he
        rw [getD_set_self _ _ _ _ hlt]
        rw [inv2.canon _ eY he, hincoming]
        rw [inputsOf_append_singleton, if_pos rfl, hbp]
        simp only [List.cons_append, List.drop_succ_cons, List.drop_zero,
          List.map_append, List.map_cons, List.map_nil]
        rw [List.foldl_append]
        rfl
      · have hYrec : eY.recIdx ≠ e.recIdx := by
          intro hc
          obtain ⟨-, -, hYorig⟩ :=
            consInv_canon_facts p nm store0 ins s1 hrec inv1 Y eY heY
          rw [hc, hcorig] at hYorig
          exact hYX hYorig.symm
        simp only
        rw [getD_set_ne _ _ _ _ _ hYrec]
        rw [inputsOf_append_singleton, if_neg (fun hc => hYX hc.symm),
          List.append_nil]
        exact inv2.canon Y eY heY

theorem pass2_run (p : Val → Bool) (nm : Option (String → String))
    (store0 : List Record) (ins : List (String × Nat)) (s1 : ConsState)
    (hrec : ∀ r ∈ store0, (r.map Prod.fst).Nodup)
    (hnodupidx : (ins.map Prod.snd).Nodup)
    (inv1 : ConsInv p nm store0 ins s1) :
    Pass2Inv p store0 s1 ins (consolidate p nm s1 ins) := by
  suffices h : ∀ (rest pr : List (String × Nat)) (t : ConsState),
      pr ++ rest = ins → Pass2Inv p store0 s1 pr t →
      Pass2Inv p store0 s1 (pr ++ rest) (consolidate p nm t rest) by
    simpa using h ins [] s1 rfl (pass2_init p store0 s1)
  intro rest
  induction rest with
  | nil =>
      intro pr t hpr inv2
      rw [consolidate_nil, List.append_nil]
      exact inv2
  | cons a rest' ih =>
      intro pr t hpr inv2
      have hstep := pass2_step p nm store0 ins s1 hrec hnodupidx inv1
        pr rest' a hpr.symm t inv2
      have h3 := ih (pr ++ [a]) _ (by rw [← hpr]; simp) hstep
      rw [consolidate_cons,
        show pr ++ a :: rest' = (pr ++ [a]) ++ rest' from by simp]
      exact h3

theorem consolidate_twice_eq (p : Val → Bool) (nm : Option (String → String))
    (rd : List (String × List Record)) (hrec : recordsNodup rd) :
    consolidate p nm (runConsolidation p nm rd) (inputSeq rd) =
      runConsolidation p nm rd := by
  have inv1 : ConsInv p nm (initialStore rd) (inputSeq rd) (runConsolidation p nm rd) :=
    consInv_runConsolidation p nm rd hrec
  have hnodupidx : ((inputSeq rd).map Prod.snd).Nodup := by
    rw [inputSeq_snd]; exact List.nodup_range _
  have inv2 : Pass2Inv p (initialStore rd) (runConsolidation p nm rd) (inputSeq rd)
      (consolidate p nm (runConsolidation p nm rd) (inputSeq rd)) :=
    pass2_run p nm (initialStore rd) (inputSeq rd) (runConsolidation p nm rd)
      hrec hnodupidx inv1
  have hu := inv2.uniqueEq
  have hs : (consolidate p nm (runConsolidation p nm rd) (inputSeq rd)).store =
      (runConsolidation p nm rd).store := by
    refine ext_getD [] _ _ inv2.lenEq ?_
    intro i hi
    by_cases hcan : ∃ Y eY, alookup Y (runConsolidation p nm rd).unique = some eY ∧
        eY.recIdx = i
    · obtain ⟨Y, eY, heY, hidx⟩ := hcan
      subst hidx
      rw [inv2.canon Y eY heY]
      obtain ⟨b, restY, hbr, -, -, -, -, hstore⟩ := inv1.entry Y eY heY
      rw [hbr]
      simp only [List.drop_succ_cons, List.drop_zero]
      rw [hstore]
      exact chain_idem p _ _ (store0_getD_nodup hrec b.2)
    · push_neg at hcan
      exact inv2.untouched i (fun Y eY heY heq => hcan Y eY heY heq)
  calc consolidate p nm (runConsolidation p nm rd) (inputSeq rd)
      = ⟨(consolidate p nm (runConsolidation p nm rd) (inputSeq rd)).store,
         (consolidate p nm (runConsolidation p nm rd) (inputSeq rd)).unique⟩ := rfl
    _ = ⟨(runConsolidation p nm rd).store, (runConsolidation p nm rd).unique⟩ := by
        rw [hs, hu]
    _ = runConsolidation p nm rd := rfl

/-! ## Region-set monotonicity (no invariant needed) -/

theorem regions_mono_step (p : Val → Bool) (nm : Option (String → String))
    (s : ConsState) (rk : String) (idx : Nat) (X : Val) (e : CanonEntry)
    (h : alookup X s.unique = some e) :
    ∃ e', alookup X (consStep p nm s rk idx).unique = some e' ∧
      ∀ r ∈ e.regions, r ∈ e'.regions := by
  cases hl : alookup (extId (s.store.getD idx [])) s.unique with
  | none =>
      rw [consStep_new p nm s rk idx hl]
      refine ⟨e, ?_, fun r hr => hr⟩
      rw [alookup_append, h]
  | some e2 =>
      rw [consStep_merge p nm s rk idx e2 hl]
      by_cases hX : extId (s.store.getD idx []) = X
      · rw [hX] at hl
        have he2 : e2 = e := alookup_functional hl h
        subst he2
        refine ⟨mergedEntry nm rk e2, ?_, ?_⟩
        · rw [hX]
          exact alookup_updEntry_eq _ (mem_keys_of_alookup h)
        · intro r hr
          rw [mergedEntry_regions]
          by_cases hrk : rk ∈ e2.regions
          · rw [if_pos hrk]; exact hr
          · rw [if_neg hrk]; exact List.mem_append.2 (Or.inl hr)
      · refine ⟨e, ?_, fun r hr => hr⟩
        rw [alookup_updEntry_ne _ _ (fun hc => hX hc.symm)]
        exact h

theorem regions_mono_run (p : Val → Bool) (nm : Option (String → String)) :
    ∀ (ins : List (String × Nat)) (s : ConsState) (X : Val) (e : CanonEntry),
    alookup X s.unique = some e →
    ∃ e', alookup X (consolidate p nm s ins).unique = some e' ∧
      ∀ r ∈ e.regions, r ∈ e'.regions := by
  intro ins
  induction ins with
  | nil => intro s X e h; exact ⟨e, h, fun r hr => hr⟩
  | cons a rest ih =>
      intro s X e h
      obtain ⟨e1, h1, hsub1⟩ := regions_mono_step p nm s a.1 a.2 X e h
      obtain ⟨e2, h2, hsub2⟩ := ih (consStep p nm s a.1 a.2) X e1 h1
      rw [consolidate_cons]
      exact ⟨e2, h2, fun r hr => hsub2 r (hsub1 r hr)⟩

/-! ## Records whose extracted identifier is the empty string are still
consolidated (the identifier field being absent or holding the empty
string both extract to the empty string) -/

theorem consStep_blank_id (p : Val → Bool) (nm : Option (String → String))
    (s : ConsState) (rk : String) (idx : Nat)
    (hlid : extId (s.store.getD idx []) = Val.str "") :
    (alookup (Val.str "") (consStep p nm s rk idx).unique).isSome := by
  cases hl : alookup (extId (s.store.getD idx [])) s.unique with
  | none =>
      rw [consStep_new p nm s rk idx hl]
      rw [← hlid]
      rw [alookup_append]
      rw [hlid] at hl ⊢
      rw [hl]
      simp [alookup]
  | some e =>
      rw [consStep_merge p nm s rk idx e hl]
      rw [← hlid]
      rw [alookup_updEntry_eq _ (mem_keys_of_alookup hl)]
      rfl

/-! ## Auxiliary characterisations for the claims -/

theorem isNoneOrEmptyStr_iff (w : Val) :
    isNoneOrEmptyStr w = true ↔ (w = Val.null ∨ w = Val.str "") := by
  cases w <;> simp [isNoneOrEmptyStr]

theorem isNoneVal_iff (w : Val) :
    isNoneVal w = true ↔ w = Val.null := by
  cases w <;> simp [isNoneVal]

theorem safe_getPathAux_resolveSpec (default : Val) :
    ∀ (ks : List String) (cur : Val),
    safe_getPathAux default cur ks =
      match resolveSpec cur ks with
      | none => default
      | some v => if v = Val.null then default else v := by
  intro ks
  induction ks with
  | nil => intro cur; cases cur <;> rfl
  | cons k rest ih =>
      intro cur
      cases cur with
      | obj fs =>
          simp only [safe_getPathAux, resolveSpec]
          cases alookup k fs with
          | none => rfl
          | some v => exact ih v
      | null => rfl
      | str s => rfl
      | bool b => rfl
      | int n => rfl
      | list xs => rfl

/-! ## Claim C7 -/

/-- C7: for every listing whose normalised text corpus contains both "il4" and
"il6", `determine_impact_level` returns the IL6 result and never IL4 — the
rule chain tests IL6 first, in both processors. -/
theorem claim_C7 :
    (∀ l : Record, strHas (listingTextAll l) "il4" = true →
      strHas (listingTextAll l) "il6" = true →
      determine_impact_levelAll l = "IL6 (Secret)") ∧
    (∀ l : Record, strHas (listingTextCust l) "il4" = true →
      strHas (listingTextCust l) "il6" = true →
      determine_impact_levelCust l = "IL6 (Secret)") := by
  constructor
  · intro l h4 h6
    simp [determine_impact_levelAll, h6]
  · intro l h4 h6
    simp [determine_impact_levelCust, h6]

/-- Witness for C7 at a concrete listing mentioning IL4 and IL6. -/
theorem claim_C7_witness :
    strHas (listingTextAll ilListingEx) "il4" = true ∧
    strHas (listingTextAll ilListingEx) "il6" = true ∧
    strHas (listingTextCust ilListingEx) "il4" = true ∧
    strHas (listingTextCust ilListingEx) "il6" = true ∧
    determine_impact_levelAll ilListingEx = "IL6 (Secret)" ∧
    determine_impact_levelCust ilListingEx = "IL6 (Secret)" :=
  ⟨by decide, by decide, by decide, by decide,
   claim_C7.1 ilListingEx (by decide) (by decide),
   claim_C7.2 ilListingEx (by decide) (by decide)⟩

/-! ## Claim C8 -/

/-- C8: the numeric sales priority score is always an integer in [1,10] (both
processors), and a synthetic listing whose accumulated base-plus-deltas sum
past 10 (here to 12) reports exactly 10, never the unclamped sum. -/
theorem claim_C8 :
    (∀ (l : Record) (regions : List String),
      1 ≤ calculate_sales_priority_scoreAll l regions ∧
      calculate_sales_priority_scoreAll l regions ≤ 10 ∧
      1 ≤ calculate_sales_priority_scoreCust l regions ∧
      calculate_sales_priority_scoreCust l regions ≤ 10) ∧
    rawSalesScoreAll salesListingEx salesRegionsEx = 12 ∧
    (10 : Int) < rawSalesScoreAll salesListingEx salesRegionsEx ∧
    calculate_sales_priority_scoreAll salesListingEx salesRegionsEx = 10 := by
  refine ⟨?_, by decide, by decide, by decide⟩
  intro l regions
  exact ⟨le_min (by norm_num) (le_max_left 1 _), min_le_left 10 _,
    le_min (by norm_num) (le_max_left 1 _), min_le_left 10 _⟩

/-! ## Claim C10 -/

/-- C10: the numeric sales priority score is in fact always at least 5 — the
computation starts from base 5 and every adjustment is a non-negative
increment, so the result lies in [5,10] (both processors). -/
theorem claim_C10 :
    ∀ (l : Record) (regions : List String),
      5 ≤ calculate_sales_priority_scoreAll l regions ∧
      calculate_sales_priority_scoreAll l regions ≤ 10 ∧
      5 ≤ calculate_sales_priority_scoreCust l regions ∧
      calculate_sales_priority_scoreCust l regions ≤ 10 := by
  intro l regions
  have hA : 5 ≤ rawSalesScoreAll l regions := by
    simp only [rawSalesScoreAll]
    split_ifs <;> norm_num
  have hC : 5 ≤ rawSalesScoreCust l regions := by
    simp only [rawSalesScoreCust]
    split_ifs <;> norm_num
  refine ⟨?_, min_le_left 10 _, ?_, min_le_left 10 _⟩
  · exact le_min (by norm_num) (le_trans hA (le_max_right 1 _))
  · exact le_min (by norm_num) (le_trans hC (le_max_right 1 _))

/-! ## Claim C9 -/

/-- Counterexample to C9: a listing present in both a DoD-current realm and a
DoD-legacy realm does not receive the sum of both realm increments — the code
takes the `elif` branch, scores 6 rather than 10, and reports HIGH where the
claim's independent additive reading would report CRITICAL. -/
theorem claim_C9_counterexample :
    calculate_gov_sales_priority [] govRegionsEx = "HIGH" ∧
    rawGovScore [] govRegionsEx = 6 ∧
    govScoreSpecAdd [] govRegionsEx = 10 ∧
    govBucket (govScoreSpecAdd [] govRegionsEx) = "CRITICAL" ∧
    ("HIGH" : String) ≠ "CRITICAL" :=
  ⟨by decide, by decide, by decide, by decide, by decide⟩

/-- C9 (amended): the government sales priority is the bucketing (≥8 CRITICAL,
≥5 HIGH, ≥3 MEDIUM, else LOW) of a score in which the DoD-current-realm
increment (6) takes precedence over the DoD-legacy increment (4) — they are
not independently additive — while the remaining four indicators (Gov realm
+3, security focus +2, FedRAMP +1, CMMC +1) contribute independently. -/
theorem claim_C9 :
    ∀ (l : Record) (regions : List String),
      calculate_gov_sales_priority l regions = govPriorityAmended l regions := by
  intro l regions
  have htot : rawGovScore l regions =
      (if "oc2_us_dod_east" ∈ regions ∨ "oc2_us_dod_west" ∈ regions then (6 : Int)
       else if regions.any (fun k => strStarts k "legacy_us_dod") then 4 else 0) +
      ([if "oc3_us_gov_east" ∈ regions ∨ "oc3_us_gov_west" ∈ regions then (3 : Int)
          else 0,
        if is_security_focused l then 2 else 0,
        if determine_fedramp_statusCust l ≠ "Not Specified" then 1 else 0,
        if determine_cmmc_levelCust l ≠ "Not Specified" then 1 else 0] : List Int).sum := by
    simp only [rawGovScore, List.sum_cons, List.sum_nil]
    ring
  simp only [calculate_gov_sales_priority, govPriorityAmended, govBucket]
  rw [htot]

/-! ## Claim C4 -/

/-- Counterexample to C4: with a single string key, a resolved value that is
present and non-null — the empty string — still yields the default, because
the single-key branch is `data.get(keys, default) or default` and Python `or`
tests truthiness, not nullness. -/
theorem claim_C4_counterexample :
    safe_get [("a", Val.str "")] (PathOrKey.single "a") (Val.str "d") = Val.str "d" ∧
    alookup "a" [("a", Val.str "")] = some (Val.str "") ∧
    Val.str "" ≠ Val.null ∧
    Val.str "d" ≠ Val.str "" :=
  ⟨by decide, by decide, by decide, by decide⟩

/-- C4 (amended): for key-path lookups `safe_get` returns the default exactly
when an intermediate key is absent, an intermediate value is not a mapping, or
the resolved value is null, and otherwise the resolved value unchanged; for
single-key lookups it returns the default whenever the resolved value is
absent or falsy (null, false, zero, empty string/list/object), and otherwise
the resolved value unchanged. It is a total function, so it never raises. -/
theorem claim_C4 :
    (∀ (data : Record) (ks : List String) (default : Val),
      safe_get data (PathOrKey.path ks) default =
        match resolveSpec (Val.obj data) ks with
        | none => default
        | some v => if v = Val.null then default else v) ∧
    (∀ (data : Record) (k : String) (default : Val),
      safe_get data (PathOrKey.single k) default =
        match alookup k data with
        | none => default
        | some v => if truthy v then v else default) := by
  constructor
  · intro data ks default
    exact safe_getPathAux_resolveSpec default ks (Val.obj data)
  · intro data k default
    show safe_getKey data k default = _
    cases h : alookup k data with
    | none =>
        simp only [safe_getKey, h, Option.getD]
        unfold pyOr
        split <;> rfl
    | some v =>
        simp only [safe_getKey, h, Option.getD]
        rfl

/-! ## Claim C1 -/

/-- Counterexample to C1: in the all-regions consolidator an empty string is
not treated as empty — with description "" from region A and "bar" from
region B, the canonical record keeps "", not "bar". -/
theorem claim_C1_counterexample :
    (runAll rdDescEmptyFirst).unique =
      [(Val.str "X", ⟨0, ["A", "B"], "A", []⟩)] ∧
    alookup "description" ((runAll rdDescEmptyFirst).store.getD 0 []) =
      some (Val.str "") ∧
    some (Val.str "") ≠ some (Val.str "bar") :=
  ⟨by decide, by decide, by decide⟩

/-- C1 (amended): a later record's field is written into the canonical record
exactly when the canonical record lacks the field or holds an empty value
there — but "empty" means null or the empty string only in the customer
consolidator; in the all-regions consolidator it means null alone, so a
canonical empty string survives ("" then "bar" gives "bar" for the customer
script and "" for the all-regions script; "foo" then "bar" gives "foo" in
both). -/
theorem claim_C1 :
    (∀ (ex inc : Record) (k : String), (inc.map Prod.fst).Nodup →
      alookup k (mergeFields isNoneOrEmptyStr ex inc) =
        match alookup k inc, alookup k ex with
        | none, w? => w?
        | some v, none => some v
        | some v, some w =>
            if w = Val.null ∨ w = Val.str "" then some v else some w) ∧
    (∀ (ex inc : Record) (k : String), (inc.map Prod.fst).Nodup →
      alookup k (mergeFields isNoneVal ex inc) =
        match alookup k inc, alookup k ex with
        | none, w? => w?
        | some v, none => some v
        | some v, some w => if w = Val.null then some v else some w) ∧
    alookup "description" ((runCust rdDescEmptyFirst).store.getD 0 []) =
      some (Val.str "bar") ∧
    alookup "description" ((runAll rdDescEmptyFirst).store.getD 0 []) =
      some (Val.str "") ∧
    alookup "description" ((runAll rdDescFooFirst).store.getD 0 []) =
      some (Val.str "foo") ∧
    alookup "description" ((runCust rdDescFooFirst).store.getD 0 []) =
      some (Val.str "foo") := by
  refine ⟨?_, ?_, by decide, by decide, by decide, by decide⟩
  · intro ex inc k h
    rw [alookup_mergeFields_nodup isNoneOrEmptyStr inc ex k h]
    cases alookup k inc with
    | none => rfl
    | some v =>
        cases alookup k ex with
        | none => rfl
        | some w => simp only [isNoneOrEmptyStr_iff]
  · intro ex inc k h
    rw [alookup_mergeFields_nodup isNoneVal inc ex k h]
    cases alookup k inc with
    | none => rfl
    | some v =>
        cases alookup k ex with
        | none => rfl
        | some w => simp only [isNoneVal_iff]

/-- Witness for C1 on concrete one-field records. -/
theorem claim_C1_witness :
    (([("description", Val.str "bar")] : Record).map Prod.fst).Nodup ∧
    alookup "description" (mergeFields isNoneOrEmptyStr
        [("description", Val.str "")] [("description", Val.str "bar")]) =
      (match alookup "description" ([("description", Val.str "bar")] : Record),
          alookup "description" ([("description", Val.str "")] : Record) with
        | none, w? => w?
        | some v, none => some v
        | some v, some w =>
            if w = Val.null ∨ w = Val.str "" then some v else some w) :=
  ⟨by decide, claim_C1.1 [("description", Val.str "")]
    [("description", Val.str "bar")] "description" (by decide)⟩

/-! ## Claim C2 -/

/-- Counterexample to C2: a raw record with no identifier field is not
skipped — consolidation creates a canonical listing keyed by the empty-string
identifier for it (and for every other identifier-less record). -/
theorem claim_C2_counterexample :
    (runAll rdNoId).unique ≠ [] ∧
    (runAll rdNoId).unique.map Prod.fst = [Val.str ""] ∧
    (runCust rdNoId).unique.map Prod.fst = [Val.str ""] :=
  ⟨by decide, by decide, by decide⟩

/-- C2 (amended): no record is ever skipped and nothing is counted — neither
consolidator has a skip branch. A raw record whose identifier field is absent
or holds the empty string extracts the empty-string identifier
(`listing.get('id', '')` yields `''` in both cases) and is consolidated like
any other record, so after its step a canonical listing keyed by the
empty-string identifier exists, and all such records across regions collapse
into that one canonical listing; a record whose identifier is null is
likewise consolidated rather than skipped, but under the null identifier
(`get` returns the present null value), in its own canonical listing
(both processors). -/
theorem claim_C2 :
    (∀ (s : ConsState) (rk : String) (idx : Nat),
      extId (s.store.getD idx []) = Val.str "" →
      (alookup (Val.str "") (consStep isNoneVal none s rk idx).unique).isSome) ∧
    (∀ (s : ConsState) (rk : String) (idx : Nat),
      extId (s.store.getD idx []) = Val.str "" →
      (alookup (Val.str "")
        (consStep isNoneOrEmptyStr (some region_mapping) s rk idx).unique).isSome) ∧
    (∀ (r : Record), alookup "id" r = none → extId r = Val.str "") ∧
    (∀ (r : Record), alookup "id" r = some (Val.str "") → extId r = Val.str "") ∧
    (runAll rdBlankId).unique.map Prod.fst = [Val.str "", Val.null] ∧
    Option.map CanonEntry.regions (alookup (Val.str "") (runAll rdBlankId).unique)
      = some ["A", "B"] ∧
    (runCust rdBlankId).unique.map Prod.fst = [Val.str "", Val.null] ∧
    Option.map CanonEntry.regions (alookup (Val.str "") (runCust rdBlankId).unique)
      = some ["A", "B"] :=
  ⟨fun s rk idx h => consStep_blank_id isNoneVal none s rk idx h,
   fun s rk idx h => consStep_blank_id isNoneOrEmptyStr (some region_mapping) s rk idx h,
   fun r h => by simp [extId, h],
   fun r h => by simp [extId, h],
   by decide, by decide, by decide, by decide⟩

/-- Witness for C2 at concrete records: one whose identifier field is absent
and one whose identifier is the empty string. -/
theorem claim_C2_witness :
    extId ((⟨[[("name", Val.str "n")]], []⟩ : ConsState).store.getD 0 []) =
      Val.str "" ∧
    (alookup (Val.str "")
      (consStep isNoneVal none ⟨[[("name", Val.str "n")]], []⟩ "A" 0).unique).isSome ∧
    extId ((⟨[[("id", Val.str ""), ("x", Val.str "q")]], []⟩ : ConsState).store.getD
      0 []) = Val.str "" ∧
    (alookup (Val.str "")
      (consStep isNoneOrEmptyStr (some region_mapping)
        ⟨[[("id", Val.str ""), ("x", Val.str "q")]], []⟩ "B" 0).unique).isSome ∧
    alookup "id" ([("name", Val.str "n")] : Record) = none ∧
    extId ([("name", Val.str "n")] : Record) = Val.str "" ∧
    alookup "id" ([("id", Val.str "")] : Record) = some (Val.str "") ∧
    extId ([("id", Val.str "")] : Record) = Val.str "" :=
  ⟨by decide,
   claim_C2.1 ⟨[[("name", Val.str "n")]], []⟩ "A" 0 (by decide),
   by decide,
   claim_C2.2.1 ⟨[[("id", Val.str ""), ("x", Val.str "q")]], []⟩ "B" 0 (by decide),
   by decide,
   claim_C2.2.2.1 [("name", Val.str "n")] (by decide),
   by decide,
   claim_C2.2.2.2.1 [("id", Val.str "")] (by decide)⟩

/-! ## Claim C3 -/

/-- Counterexample to C3: consolidation mutates a raw record — the canonical
record aliases the first-seen raw record, so after merging region B's extra
field, region A's raw record no longer holds the fields it held before. -/
theorem claim_C3_counterexample :
    (initialStore rdAlias).getD 0 [] = [("id", Val.str "X")] ∧
    (runAll rdAlias).store.getD 0 [] = [("id", Val.str "X"), ("d", Val.str "v")] ∧
    (runAll rdAlias).store.getD 0 [] ≠ (initialStore rdAlias).getD 0 [] :=
  ⟨by decide, by decide, by decide⟩

/-- C3 (amended): consolidation mutates only the raw records that serve as
canonical records — for each identifier, the first-seen raw record, which the
canonical entry aliases (its heap index is the first input index carrying
that identifier); every raw record that is not aliased by a canonical entry
holds exactly the fields and values it held before (both processors). -/
theorem claim_C3 :
    ∀ (rd : List (String × List Record)), recordsNodup rd →
      (∀ i, (∀ X e, alookup X (runAll rd).unique = some e → e.recIdx ≠ i) →
        (runAll rd).store.getD i [] = (initialStore rd).getD i []) ∧
      (∀ i, (∀ X e, alookup X (runCust rd).unique = some e → e.recIdx ≠ i) →
        (runCust rd).store.getD i [] = (initialStore rd).getD i []) ∧
      (∀ X e, alookup X (runAll rd).unique = some e →
        ∃ a rest, inputsOf (initialStore rd) X (inputSeq rd) = a :: rest ∧
          e.recIdx = a.2) ∧
      (∀ X e, alookup X (runCust rd).unique = some e →
        ∃ a rest, inputsOf (initialStore rd) X (inputSeq rd) = a :: rest ∧
          e.recIdx = a.2) := by
  intro rd hrec
  have i1 := consInv_runConsolidation isNoneVal none rd hrec
  have i2 := consInv_runConsolidation isNoneOrEmptyStr (some region_mapping) rd hrec
  refine ⟨i1.untouched, i2.untouched, ?_, ?_⟩
  · intro X e he
    obtain ⟨a, rest, h1, h2, -, -, -, -⟩ := i1.entry X e he
    exact ⟨a, rest, h1, h2⟩
  · intro X e he
    obtain ⟨a, rest, h1, h2, -, -, -, -⟩ := i2.entry X e he
    exact ⟨a, rest, h1, h2⟩

/-- Witness for C3 at a concrete two-region input. -/
theorem claim_C3_witness :
    recordsNodup rdAlias ∧
    (∀ i, (∀ X e, alookup X (runAll rdAlias).unique = some e → e.recIdx ≠ i) →
      (runAll rdAlias).store.getD i [] = (initialStore rdAlias).getD i []) :=
  ⟨by unfold recordsNodup; decide, (claim_C3 rdAlias (by unfold recordsNodup; decide)).1⟩

/-! ## Claim C5 -/

/-- C5: consolidation is idempotent for a fixed region order — replaying the
whole input sequence against an already-consolidated state leaves that state
unchanged (identical canonical listing content), region sets contain no
duplicates, and a merge never overwrites an existing non-empty value (both
processors, with each one's own notion of "empty"). -/
theorem claim_C5 :
    ∀ (rd : List (String × List Record)), recordsNodup rd →
      consolidate isNoneVal none (runAll rd) (inputSeq rd) = runAll rd ∧
      consolidate isNoneOrEmptyStr (some region_mapping) (runCust rd)
        (inputSeq rd) = runCust rd ∧
      (∀ X e, alookup X (runAll rd).unique = some e → e.regions.Nodup) ∧
      (∀ X e, alookup X (runCust rd).unique = some e → e.regions.Nodup) ∧
      (∀ (ex inc : Record) (k : String) (w : Val), alookup k ex = some w →
        isNoneVal w = false →
        alookup k (mergeFields isNoneVal ex inc) = some w) ∧
      (∀ (ex inc : Record) (k : String) (w : Val), alookup k ex = some w →
        isNoneOrEmptyStr w = false →
        alookup k (mergeFields isNoneOrEmptyStr ex inc) = some w) := by
  intro rd hrec
  have i1 := consInv_runConsolidation isNoneVal none rd hrec
  have i2 := consInv_runConsolidation isNoneOrEmptyStr (some region_mapping) rd hrec
  refine ⟨consolidate_twice_eq isNoneVal none rd hrec,
    consolidate_twice_eq isNoneOrEmptyStr (some region_mapping) rd hrec,
    ?_, ?_,
    fun ex inc k w hw hp => alookup_mergeFields_stable isNoneVal inc hw hp,
    fun ex inc k w hw hp => alookup_mergeFields_stable isNoneOrEmptyStr inc hw hp⟩
  · intro X e he
    obtain ⟨a, rest, -, -, -, hreg, -, -⟩ := i1.entry X e he
    rw [hreg]
    exact nodup_dedupR _
  · intro X e he
    obtain ⟨a, rest, -, -, -, hreg, -, -⟩ := i2.entry X e he
    rw [hreg]
    exact nodup_dedupR _

/-- Witness for C5 at a concrete three-region input. -/
theorem claim_C5_witness :
    recordsNodup rdThreeRegions ∧
    consolidate isNoneVal none (runAll rdThreeRegions) (inputSeq rdThreeRegions) =
      runAll rdThreeRegions :=
  ⟨by unfold recordsNodup; decide, (claim_C5 rdThreeRegions (by unfold recordsNodup; decide)).1⟩

/-! ## Claim C6 -/

/-- C6: each identifier maps to exactly one canonical listing (the canonical
mapping's keys contain no duplicates); a canonical listing's region set is
exactly the set of regions whose inputs carry its identifier — so after
merging records from regions [A, B, C] it equals {A, B, C} however many
fields overlapped — and the region set only grows as further records are
merged (both processors). -/
theorem claim_C6 :
    ∀ (rd : List (String × List Record)), recordsNodup rd →
      ((runAll rd).unique.map Prod.fst).Nodup ∧
      ((runCust rd).unique.map Prod.fst).Nodup ∧
      (∀ X e, alookup X (runAll rd).unique = some e → ∀ r,
        r ∈ e.regions ↔
          ∃ a ∈ inputSeq rd, a.1 = r ∧ origId (initialStore rd) a.2 = X) ∧
      (∀ X e, alookup X (runCust rd).unique = some e → ∀ r,
        r ∈ e.regions ↔
          ∃ a ∈ inputSeq rd, a.1 = r ∧ origId (initialStore rd) a.2 = X) ∧
      (∀ (s : ConsState) (ins : List (String × Nat)) (X : Val) (e : CanonEntry),
        alookup X s.unique = some e →
        ∃ e', alookup X (consolidate isNoneVal none s ins).unique = some e' ∧
          ∀ r ∈ e.regions, r ∈ e'.regions) ∧
      (∀ (s : ConsState) (ins : List (String × Nat)) (X : Val) (e : CanonEntry),
        alookup X s.unique = some e →
        ∃ e', alookup X (consolidate isNoneOrEmptyStr (some region_mapping)
            s ins).unique = some e' ∧
          ∀ r ∈ e.regions, r ∈ e'.regions) := by
  intro rd hrec
  have i1 := consInv_runConsolidation isNoneVal none rd hrec
  have i2 := consInv_runConsolidation isNoneOrEmptyStr (some region_mapping) rd hrec
  refine ⟨?_, ?_, ?_, ?_,
    fun s ins X e h => regions_mono_run isNoneVal none ins s X e h,
    fun s ins X e h =>
      regions_mono_run isNoneOrEmptyStr (some region_mapping) ins s X e h⟩
  · rw [show (runAll rd).unique.map Prod.fst =
      dedupR ((inputSeq rd).map (fun a => origId (initialStore rd) a.2)) from
      i1.keysEq]
    exact nodup_dedupR _
  · rw [show (runCust rd).unique.map Prod.fst =
      dedupR ((inputSeq rd).map (fun a => origId (initialStore rd) a.2)) from
      i2.keysEq]
    exact nodup_dedupR _
  · intro X e he r
    obtain ⟨a0, rest0, -, -, -, hreg, -, -⟩ := i1.entry X e he
    rw [hreg, mem_dedupR]
    constructor
    · intro hr
      obtain ⟨a, ha, har⟩ := List.mem_map.1 hr
      obtain ⟨hain, haid⟩ := mem_inputsOf.1 ha
      exact ⟨a, hain, har, haid⟩
    · rintro ⟨a, hain, har, haid⟩
      exact List.mem_map.2 ⟨a, mem_inputsOf.2 ⟨hain, haid⟩, har⟩
  · intro X e he r
    obtain ⟨a0, rest0, -, -, -, hreg, -, -⟩ := i2.entry X e he
    rw [hreg, mem_dedupR]
    constructor
    · intro hr
      obtain ⟨a, ha, har⟩ := List.mem_map.1 hr
      obtain ⟨hain, haid⟩ := mem_inputsOf.1 ha
      exact ⟨a, hain, har, haid⟩
    · rintro ⟨a, hain, har, haid⟩
      exact List.mem_map.2 ⟨a, mem_inputsOf.2 ⟨hain, haid⟩, har⟩

/-- Witness for C6 at a concrete three-region input with one shared
identifier. -/
theorem claim_C6_witness :
    recordsNodup rdThreeRegions ∧
    ((runAll rdThreeRegions).unique.map Prod.fst).Nodup ∧
    (runAll rdThreeRegions).unique =
      [(Val.str "X", ⟨0, ["A", "B", "C"], "A", []⟩)] :=
  ⟨by unfold recordsNodup; decide, (claim_C6 rdThreeRegions (by unfold recordsNodup; decide)).1, by decide⟩
